import Mathlib

/-!
Verification development for `deepin-translation-utils`.

This file gives a shallow embedding, in Lean 4, of the parts of the
`deepin-translation-utils` Rust sources that the checked claims are about:

* the Qt Linguist document model and its mutation operations
  (`src/i18n_file/linguist.rs`),
* the Gettext document model built on `polib` views
  (`src/i18n_file/gettext.rs`),
* message statistics (`src/i18n_file/common.rs`),
* translation-file kind detection (`src/i18n_file/common.rs`),
* the `zhconv` propagation engine and its batch driver
  (`src/subcmd/zhconv.rs`),
* the source-file identification heuristic (`src/subcmd/gentxcfg.rs`),
* reverse discovery of per-language files (`src/transifex/yaml_file.rs`).

Rust `&mut` mutation is embedded functionally: a mutating method becomes a
function returning the new value, and fallible operations return `Except`.
Filesystem interaction is embedded through explicit finite structures
(association lists for file stores, functions for directory listings).
-/

namespace DeepinTranslationUtils

/- ===================== String helpers =====================

Small character/string utilities mirroring the Rust standard-library
operations used by the sources (`str::contains`, `Path::extension`,
`Path::file_stem`, `Path::file_name`, ASCII lowercasing).  They are defined
over `List Char` and lifted to `String` through `String.data`. -/

/-- Is `c` an ASCII lowercase letter? -/
def isLowerAscii (c : Char) : Bool := 'a' ≤ c && c ≤ 'z'

/-- Is `c` an ASCII uppercase letter? -/
def isUpperAscii (c : Char) : Bool := 'A' ≤ c && c ≤ 'Z'

/-- ASCII lowercasing of a single character (Rust `to_ascii_lowercase`). -/
def toLowerAsciiChar (c : Char) : Char :=
  if isUpperAscii c then Char.ofNat (c.toNat + 32) else c

/-- ASCII lowercasing of a string (Rust `OsStr::to_ascii_lowercase`). -/
def toLowerAscii (s : String) : String :=
  ⟨s.data.map toLowerAsciiChar⟩

/-- Does the list `l` start with the list `p`? -/
def listStartsWith [DecidableEq α] : List α → List α → Bool
  | _, [] => true
  | [], _ :: _ => false
  | a :: as, b :: bs => a = b && listStartsWith as bs

/-- Does the list `l` contain `p` as a contiguous sublist?
Mirrors Rust `str::contains` for the string lift. -/
def listContainsSub [DecidableEq α] (l p : List α) : Bool :=
  match l with
  | [] => listStartsWith [] p
  | _ :: rest => listStartsWith l p || listContainsSub rest p

/-- Rust `str::contains` (substring containment). -/
def strContains (s pat : String) : Bool :=
  listContainsSub s.data pat.data

/-- Replacement of every non-overlapping occurrence of `pat` (non-empty at
all call sites) by `rep`, left to right — Rust `str::replace`.  The fuel
argument (instantiated with the list length) makes the recursion
structural. -/
def replaceAllAux (pat rep : List Char) : Nat → List Char → List Char
  | 0, l => l
  | fuel + 1, l =>
    match l with
    | [] => []
    | c :: rest =>
      if pat ≠ [] && listStartsWith l pat then
        rep ++ replaceAllAux pat rep fuel (List.drop pat.length l)
      else c :: replaceAllAux pat rep fuel rest

/-- Rust `str::replace` on strings. -/
def replaceAll (s pat rep : String) : String :=
  ⟨replaceAllAux pat.data rep.data s.data.length s.data⟩

/-- Split a character list on a separator (Rust `str::split` /
`String::splitOn` semantics: `"" ↦ [""]`, separators at the edges produce
empty segments). -/
def splitOnChar (sep : Char) : List Char → List (List Char)
  | [] => [[]]
  | c :: rest =>
    if c = sep then [] :: splitOnChar sep rest
    else
      match splitOnChar sep rest with
      | [] => [[c]]
      | seg :: segs => (c :: seg) :: segs

/-- Join path components with `/`. -/
def joinPathComponents : List String → String
  | [] => ""
  | [c] => c
  | c :: rest => c ++ "/" ++ joinPathComponents rest

/-- Split `l` at the last occurrence of `sep`: returns
`some (before, after)` where `before`/`after` exclude the separator,
or `none` when `sep` does not occur. -/
def splitAtLastSep [DecidableEq α] (sep : α) : List α → Option (List α × List α)
  | [] => none
  | a :: rest =>
    match splitAtLastSep sep rest with
    | some (before, after) => some (a :: before, after)
    | none => if a = sep then some ([], rest) else none

/-- Rust `Path::file_stem` / `Path::extension` applied to a bare file name,
following the documented rule: if the name has no `.`, or begins with `.`
and has no other `.`, the stem is the whole name and there is no extension;
otherwise the name splits at the final `.`. -/
def splitFileName (name : String) : String × Option String :=
  match name.data with
  | [] => ("", none)
  | c :: rest =>
    if c = '.' then
      match splitAtLastSep '.' rest with
      | some (before, after) => (⟨'.' :: before⟩, some ⟨after⟩)
      | none => (name, none)
    else
      match splitAtLastSep '.' (c :: rest) with
      | some (before, after) => (⟨before⟩, some ⟨after⟩)
      | none => (name, none)

/-- The extension of a file name (Rust `Path::extension` on the final
component). -/
def extOf (name : String) : Option String := (splitFileName name).2

/-- The stem of a file name (Rust `Path::file_stem` on the final
component). -/
def stemOf (name : String) : String := (splitFileName name).1

/-- The final component of a `/`-separated path string
(Rust `Path::file_name`, restricted to well-behaved paths). -/
def fileNameOf (path : String) : String :=
  match splitAtLastSep '/' path.data with
  | some (_, after) => ⟨after⟩
  | none => path

/-- The parent portion of a `/`-separated path string (Rust `Path::parent`
rendered as a string; empty for a bare file name). -/
def parentOf (path : String) : String :=
  match splitAtLastSep '/' path.data with
  | some (before, _) => ⟨before⟩
  | none => ""

/- ===================== Linguist document model =====================

Embedding of `src/i18n_file/linguist.rs`. -/

/-- `TranslationType` from `linguist.rs`: the `type` attribute of a
`<translation>` element.  A `Finished` entry carries no attribute
(`Option.none` at use sites). -/
inductive TranslationType where
  | unfinished
  | vanished
  | obsolete
deriving DecidableEq, Repr

/-- `Location` from `linguist.rs`. -/
structure Location where
  filename : Option String
  line : String
deriving DecidableEq, Repr

/-- `Translation` from `linguist.rs`. -/
structure Translation where
  type_attr : Option TranslationType
  value : Option String
  numerus_forms : List String
deriving DecidableEq, Repr

/-- `Message` from `linguist.rs`. -/
structure Message where
  location : List Location
  source : String
  translation : Translation
  comment : Option String
  numerus : Option String
deriving DecidableEq, Repr

/-- `Message::fill_translation`: store the text and drop the `type`
attribute (making the entry `Finished`). -/
def Message.fill_translation (m : Message) (t : String) : Message :=
  { m with translation := { m.translation with value := some t, type_attr := none } }

/-- `Context` from `linguist.rs`. -/
structure Context where
  name : String
  messages : List Message
deriving DecidableEq, Repr

/-- `Ts` from `linguist.rs`. -/
structure Ts where
  language : Option String
  version : String
  contexts : List Context
deriving DecidableEq, Repr

/-- `Ts::get_language`. -/
def Ts.get_language (ts : Ts) : Option String := ts.language

/-- `Ts::set_language`. -/
def Ts.set_language (ts : Ts) (language : String) : Ts :=
  { ts with language := some language }

/-- The per-message step of `Ts::clear_finished_messages`: messages with a
`type` attribute are skipped; otherwise the value is dropped and the type
is set to `unfinished`. -/
def clearMessage (m : Message) : Message :=
  if m.translation.type_attr.isSome then m
  else { m with translation :=
    { m.translation with value := none, type_attr := some .unfinished } }

/-- `Ts::clear_finished_messages`. -/
def Ts.clear_finished_messages (ts : Ts) : Ts :=
  { ts with contexts := ts.contexts.map fun ctx =>
    { ctx with messages := ctx.messages.map clearMessage } }

/- ===================== Message statistics =====================

Embedding of `MessageStats` from `src/i18n_file/common.rs`. -/

/-- `MessageStats` from `common.rs`. -/
structure MessageStats where
  finished : Nat
  unfinished : Nat
  vanished : Nat
  obsolete : Nat
  fuzzy : Nat
deriving DecidableEq, Repr

/-- `MessageStats::shown_translated`. -/
def MessageStats.shown_translated (s : MessageStats) : Nat := s.finished

/-- `MessageStats::shown_unfinished`. -/
def MessageStats.shown_unfinished (s : MessageStats) : Nat := s.unfinished + s.fuzzy

/-- `MessageStats::shown_obsolete`. -/
def MessageStats.shown_obsolete (s : MessageStats) : Nat := s.obsolete + s.vanished

/-- `MessageStats::completeness_percentage` (the zero-argument form present
in `src/i18n_file/common.rs`).  The `f64` arithmetic of the source is
embedded as exact rational arithmetic. -/
def MessageStats.completeness_percentage (s : MessageStats) : ℚ :=
  let finished := s.shown_translated
  let unfinished := s.shown_unfinished
  let total := finished + unfinished
  if total = 0 then 0 else ((finished : ℚ) / (total : ℚ)) * 100

/-- Modelled from the spec: the reference-total variant of
`completeness_percentage` called by `src/subcmd/statistics.rs` (as
`completeness_percentage(reference_total)`) is not among the definitions
under `src/` — `common.rs` there holds only the zero-argument form.  The
spec says completeness is `finished / (finished+unfinished) × 100`, "using
either the pair's own total or an externally supplied reference total
(0 when denominator is 0)"; the shown buckets merge fuzzy into unfinished. -/
def MessageStats.completeness_percentage_ref (s : MessageStats)
    (reference_total : Option Nat) : ℚ :=
  let finished := s.shown_translated
  let total := reference_total.getD (s.shown_translated + s.shown_unfinished)
  if total = 0 then 0 else ((finished : ℚ) / (total : ℚ)) * 100

/- ===================== Kind detection =====================

Embedding of `I18nFileKind::from_ext_hint` from `src/i18n_file/common.rs`.
The path argument is represented by its final component (the extension only
depends on the file name). -/

/-- `I18nFileKind` from `common.rs`. -/
inductive I18nFileKind where
  | linguist
  | gettext
deriving DecidableEq, Repr

/-- `UnknownI18nFileExtError` from `common.rs` (carries the offending
extension; the empty string when the path has none). -/
structure UnknownI18nFileExtError where
  ext : String
deriving DecidableEq, Repr

/-- `I18nFileKind::from_ext_hint`: the extension is taken from the path,
ASCII-lowercased, and matched against `ts` / `po` / `pot`. -/
def I18nFileKind.from_ext_hint (path_hint : String) :
    Except UnknownI18nFileExtError I18nFileKind :=
  match (extOf (fileNameOf path_hint)).map toLowerAscii with
  | some s =>
    if s = "ts" then .ok .linguist
    else if s = "po" ∨ s = "pot" then .ok .gettext
    else .error ⟨s⟩
  | none => .error ⟨""⟩

/- ===================== Gettext document model =====================

Embedding of `src/i18n_file/gettext.rs`.  The `polib::catalog::Catalog`
is embedded by the data its views expose to this repository's code:
an ordered message list plus the `language` metadata field.  A message is
singular (one `msgstr`) or plural (a `msgstr_plural` vector); `polib`'s
`msgstr()` accessor is defined for singular messages only. -/

/-- The translated body of a `polib` message. -/
inductive PoBody where
  | singular (msgstr : String)
  | plural (msgstr_plural : List String)
deriving DecidableEq, Repr

/-- A `polib` message as seen through `MessageView`/`MessageMutView`. -/
structure PoMessage where
  msgctxt : Option String
  msgid : String
  body : PoBody
  fuzzy : Bool
deriving DecidableEq, Repr

/-- `polib` `MessageView::is_plural`. -/
def PoMessage.is_plural (m : PoMessage) : Bool :=
  match m.body with
  | .singular _ => false
  | .plural _ => true

/-- `polib` `MessageView::is_translated`: a singular message is translated
when its `msgstr` is non-empty; a plural one when every form is non-empty. -/
def PoMessage.is_translated (m : PoMessage) : Bool :=
  match m.body with
  | .singular s => s ≠ ""
  | .plural l => l.all (fun s => s ≠ "")

/-- `polib` `MessageView::msgstr`: defined for singular messages, an error
(`none`) for plural ones. -/
def PoMessage.msgstr (m : PoMessage) : Option String :=
  match m.body with
  | .singular s => some s
  | .plural _ => none

/-- `polib` `MessageMutView::set_msgstr`, restricted to the singular case
(all call sites in this repository check `!is_plural` first). -/
def PoMessage.set_msgstr (m : PoMessage) (s : String) : PoMessage :=
  match m.body with
  | .singular _ => { m with body := .singular s }
  | .plural l => { m with body := .plural l }

/-- `Po` from `gettext.rs`: a catalog with its `language` metadata. -/
structure Po where
  language : String
  messages : List PoMessage
deriving DecidableEq, Repr

/-- `Po::get_language`. -/
def Po.get_language (po : Po) : String := po.language

/-- `Po::set_language`. -/
def Po.set_language (po : Po) (language : String) : Po :=
  { po with language := language }

/-- `Po::clear_finished_messages`: translated, non-plural messages get an
empty `msgstr`; plural and untranslated messages are untouched. -/
def Po.clear_finished_messages (po : Po) : Po :=
  { po with messages := po.messages.map fun m =>
    if m.is_translated && !m.is_plural then m.set_msgstr "" else m }

/- ===================== Propagation engine =====================

Embedding of the translation functions of `src/subcmd/zhconv.rs`.  The
external `zhconv` crate is abstracted by two parameters: `parse`, the
parsing of a corrected language code into a conversion variant (the
`target.parse()` call in `zhconv_wrapper`, `none` on failure), and `z`,
the script converter itself. -/

/-- `CmdError` from `zhconv.rs` (the constructors the embedded functions
can produce).  `panicUnwrap` models the `.unwrap()` panic at
`translate_po_content`'s `reference_message.msgstr().unwrap()` call, which
is reachable when the paired source message is plural but the target is
not: the Rust process aborts and no catalog results. -/
inductive CmdError where
  | fileNotFound (path : String)
  | noFileName
  | mismatchedLanguage (path lang : String)
  | differentContexts (lang : String)
  | differentMessages (lang : String) (sourceCount targetCount : Nat)
  | parseLanguageCode
  | missingLanguageCode
  | guessI18nFileType (path : String) (e : UnknownI18nFileExtError)
  | mismatchedI18nFileType
  | loadSourceFile (path : String)
  | loadTargetFile (path : String)
  | saveFile (path : String)
  | panicUnwrap
deriving DecidableEq, Repr

/-- `correct_language_code`: replace `_` by `-`. -/
def correctLanguageCode (language_code : String) : String :=
  ⟨language_code.data.map fun c => if c = '_' then '-' else c⟩

/-- `zhconv_wrapper`: correct the code, parse it (an error when the parse
fails), then convert. -/
def zhconvWrapper (parse : String → Option V) (z : String → V → String)
    (text target : String) : Except CmdError String :=
  match parse (correctLanguageCode target) with
  | none => .error .parseLanguageCode
  | some variant => .ok (z text variant)

/-- Pairwise effectful map over two lists, mirroring the indexed Rust
loops over equal-length source/target sequences. -/
def mapM2 (f : α → β → Except ε γ) : List α → List β → Except ε (List γ)
  | a :: as, b :: bs => do
    let c ← f a b
    let cs ← mapM2 f as bs
    pure (c :: cs)
  | _, _ => pure []

/-- The per-message body of `translate_ts_content`'s inner loop: skip
unless the target message is `unfinished`; skip when the source message is
`unfinished`; otherwise, when the source holds a value, convert it and
fill the target. -/
def translateMessage (parse : String → Option V) (z : String → V → String)
    (lang : String) (source_message m : Message) : Except CmdError Message :=
  if m.translation.type_attr ≠ some .unfinished then pure m
  else if source_message.translation.type_attr = some .unfinished then pure m
  else
    match source_message.translation.value with
    | some v => do
      let converted ← zhconvWrapper parse z v lang
      pure (m.fill_translation converted)
    | none => pure m

/-- The per-context body of `translate_ts_content`'s outer loop: message
counts must agree, else `DifferentMessages` (language, source count, target
count); then messages are translated pairwise in order. -/
def translateContext (parse : String → Option V) (z : String → V → String)
    (lang : String) (source_context ctx : Context) : Except CmdError Context :=
  if ctx.messages.length ≠ source_context.messages.length then
    .error (.differentMessages lang source_context.messages.length ctx.messages.length)
  else do
    let msgs ← mapM2 (translateMessage parse z lang) source_context.messages ctx.messages
    pure { ctx with messages := msgs }

/-- `translate_ts_content`: requires a target language code, equal context
counts (else `DifferentContexts` carrying the language code), then
translates contexts pairwise in order. -/
def translateTsContent (parse : String → Option V) (z : String → V → String)
    (source_content target_content : Ts) : Except CmdError Ts :=
  match target_content.get_language with
  | none => .error .missingLanguageCode
  | some language_code =>
    if target_content.contexts.length ≠ source_content.contexts.length then
      .error (.differentContexts language_code)
    else do
      let ctxs ← mapM2 (translateContext parse z language_code)
        source_content.contexts target_content.contexts
      pure { target_content with contexts := ctxs }

/-- The per-message body of `translate_po_content`'s loop: skip translated
targets; when the source is translated and the target is an untranslated
non-plural message, convert the source `msgstr` (the `.unwrap()` panics if
the source is plural) and store it. -/
def translatePoMessage (parse : String → Option V) (z : String → V → String)
    (lang : String) (reference_message m : PoMessage) : Except CmdError PoMessage :=
  if m.is_translated then pure m
  else if reference_message.is_translated && !m.is_translated && !m.is_plural then
    match reference_message.msgstr with
    | none => .error .panicUnwrap
    | some msgstr => do
      let translated ← zhconvWrapper parse z msgstr lang
      pure (m.set_msgstr translated)
  else pure m

/-- `translate_po_content`: message counts must agree (else
`DifferentMessages` carrying the language and both counts), then messages
are translated pairwise in order. -/
def translatePoContent (parse : String → Option V) (z : String → V → String)
    (source_content target_content : Po) : Except CmdError Po :=
  let language_code := target_content.get_language
  if target_content.messages.length ≠ source_content.messages.length then
    .error (.differentMessages language_code
      source_content.messages.length target_content.messages.length)
  else do
    let msgs ← mapM2 (translatePoMessage parse z language_code)
      source_content.messages target_content.messages
    pure { target_content with messages := msgs }

/- ===================== Batch driver =====================

Embedding of `ZhConvFile` and `subcmd_zhconv` from `src/subcmd/zhconv.rs`.
The filesystem is embedded as an association list from paths to parsed
documents (`FileStore`); loading looks a document up, saving inserts it.
`savePolicy` abstracts whether the write of a given path succeeds (the
`File::create`/serialize step).  Each load or save of a target file is
recorded as an `FsEvent`, in program order. -/

/-- `ZhConvFile` from `zhconv.rs`. -/
inductive ZhConvFile where
  | linguist (ts : Ts)
  | gettext (po : Po)
deriving DecidableEq, Repr

/-- The format of a stored document. -/
def ZhConvFile.kind : ZhConvFile → I18nFileKind
  | .linguist _ => .linguist
  | .gettext _ => .gettext

/-- `ZhConvFile::get_language`. -/
def ZhConvFile.get_language : ZhConvFile → Option String
  | .linguist ts => ts.get_language
  | .gettext po => some po.get_language

/-- `ZhConvFile::set_language`. -/
def ZhConvFile.set_language : ZhConvFile → String → ZhConvFile
  | .linguist ts, lang => .linguist (ts.set_language lang)
  | .gettext po, lang => .gettext (po.set_language lang)

/-- `ZhConvFile::translate_content_based_on` (self is the target,
`reference_content` the source). -/
def ZhConvFile.translate_content_based_on (parse : String → Option V)
    (z : String → V → String) :
    ZhConvFile → ZhConvFile → Except CmdError ZhConvFile
  | .linguist lhs, .linguist rhs => .linguist <$> translateTsContent parse z rhs lhs
  | .gettext lhs, .gettext rhs => .gettext <$> translatePoContent parse z rhs lhs
  | _, _ => .error .mismatchedI18nFileType

/-- The embedded filesystem: parsed documents by path. -/
def FileStore := List (String × ZhConvFile)

/-- Lookup in a `FileStore`. -/
def lookupFile : FileStore → String → Option ZhConvFile
  | [], _ => none
  | (q, d) :: rest, p => if q = p then some d else lookupFile rest p

/-- Insert (overwrite) in a `FileStore` — the effect of a save. -/
def insertFile : FileStore → String → ZhConvFile → FileStore
  | [], p, d => [(p, d)]
  | (q, e) :: rest, p, d =>
    if q = p then (p, d) :: rest else (q, e) :: insertFile rest p d

/-- Apply a batch of saves in order. -/
def applySaves (saves : List (String × ZhConvFile)) (fs : FileStore) : FileStore :=
  saves.foldl (fun acc pd => insertFile acc pd.1 pd.2) fs

/-- A target-file filesystem effect of the driver. -/
inductive FsEvent where
  | loadTarget (path : String)
  | saveTarget (path : String)
deriving DecidableEq, Repr

/-- `ZhConvFile::load_file`: detect the kind from the extension, then load
the document; a stored document of the other kind stands for a file whose
parse fails. -/
def ZhConvFile.load_file (fs : FileStore) (file_path : String) :
    Except CmdError ZhConvFile :=
  match I18nFileKind.from_ext_hint file_path with
  | .error e => .error (.guessI18nFileType file_path e)
  | .ok kind =>
    match lookupFile fs file_path with
    | none => .error (.loadSourceFile file_path)
    | some doc => if doc.kind = kind then .ok doc else .error (.loadSourceFile file_path)

/-- `ZhConvFile::load_or_create_target_file`, dispatching on the source
kind: a missing target is bootstrapped by cloning the source, setting the
fallback language and clearing finished messages
(`load_from_file_or_default`); an existing one is loaded (a document of
the other kind stands for a parse failure). -/
def ZhConvFile.load_or_create_target_file (source : ZhConvFile)
    (fs : FileStore) (file_path fallback_language_code : String) :
    Except CmdError ZhConvFile :=
  match source with
  | .linguist ts =>
    match lookupFile fs file_path with
    | none => .ok (.linguist ((ts.set_language fallback_language_code).clear_finished_messages))
    | some (.linguist t) => .ok (.linguist t)
    | some (.gettext _) => .error (.loadTargetFile file_path)
  | .gettext po =>
    match lookupFile fs file_path with
    | none => .ok (.gettext ((po.set_language fallback_language_code).clear_finished_messages))
    | some (.gettext t) => .ok (.gettext t)
    | some (.linguist _) => .error (.loadTargetFile file_path)

/-- Join a directory and a file name, as `Path::join` renders for the
string paths used here. -/
def joinPath (dir name : String) : String :=
  if dir = "" then name else dir ++ "/" ++ name

/-- The first pass of `subcmd_zhconv`: for each target language, derive
the target file name by replacing the source language code, load or create
the target document, and force its language code to the target language
when it differs.  Returns the loaded `(path, document)` list. -/
def loadTargets (source : ZhConvFile) (fs : FileStore)
    (dir file_name source_language : String) :
    List String → Except CmdError (List (String × ZhConvFile))
  | [] => .ok []
  | target_language :: rest => do
    let target_file_name := replaceAll file_name source_language target_language
    let target_file_path := joinPath dir target_file_name
    let loaded ← source.load_or_create_target_file fs target_file_path target_language
    let target_content :=
      if loaded.get_language = some target_language then loaded
      else loaded.set_language target_language
    let tail ← loadTargets source fs dir file_name source_language rest
    pure ((target_file_path, target_content) :: tail)

/-- The second pass of `subcmd_zhconv`: translate then save, per target,
in order; the first failure stops the pass, leaving earlier saves in
place.  Returns the final store, the save events, and the outcome. -/
def saveTargets (parse : String → Option V) (z : String → V → String)
    (savePolicy : String → Bool) (source : ZhConvFile) :
    List (String × ZhConvFile) → FileStore →
    FileStore × List FsEvent × Except CmdError Unit
  | [], fs => (fs, [], .ok ())
  | (target_path, target_content) :: rest, fs =>
    match target_content.translate_content_based_on parse z source with
    | .error e => (fs, [], .error e)
    | .ok translated =>
      if savePolicy target_path then
        let (fs', evs, res) :=
          saveTargets parse z savePolicy source rest (insertFile fs target_path translated)
        (fs', .saveTarget target_path :: evs, res)
      else (fs, [], .error (.saveFile target_path))

/-- `subcmd_zhconv`: existence and name checks, source load, then the
load pass over every target followed by the translate-and-save pass.
Returns the final store, the event trace (in program order) and the
outcome. -/
def subcmdZhconv (parse : String → Option V) (z : String → V → String)
    (savePolicy : String → Bool) (source_language : String)
    (target_languages : List String) (linguist_ts_file : String)
    (fs : FileStore) : FileStore × List FsEvent × Except CmdError Unit :=
  if (lookupFile fs linguist_ts_file).isNone then
    (fs, [], .error (.fileNotFound linguist_ts_file))
  else
    let file_name := fileNameOf linguist_ts_file
    if !strContains file_name source_language then
      (fs, [], .error (.mismatchedLanguage linguist_ts_file source_language))
    else
      match ZhConvFile.load_file fs linguist_ts_file with
      | .error e => (fs, [], .error e)
      | .ok source_content =>
        match loadTargets source_content fs (parentOf linguist_ts_file)
            file_name source_language target_languages with
        | .error e => (fs, [], .error e)
        | .ok target_contents =>
          let loads := target_contents.map fun pd => FsEvent.loadTarget pd.1
          let (fs', saves, res) :=
            saveTargets parse z savePolicy source_content target_contents fs
          (fs', loads ++ saves, res)

/- ===================== Source-file identification =====================

Embedding of the heuristic of `src/subcmd/gentxcfg.rs`.  File paths are
`/`-separated relative strings (`strip_prefix(project_root)` is modeled by
working with relative paths throughout).  The one filesystem-dependent
helper, `verify_language_code_in_path`, is abstracted as a boolean
parameter `verify` taking the path and the suspected code. -/

/-- Does the string `s` end with `p`? (Rust `str::ends_with`.) -/
def strEndsWith (s p : String) : Bool :=
  listStartsWith s.data.reverse p.data.reverse

/-- Does the string `s` start with `p`? (Rust `str::starts_with`.) -/
def strStartsWith (s p : String) : Bool :=
  listStartsWith s.data p.data

/-- The `/`-separated components of a relative path string. -/
def pathComponents (path : String) : List String :=
  (splitOnChar '/' path.data).map fun cs => ⟨cs⟩

/-- Byte-order comparison on strings (ASCII inputs), for Rust `sort`. -/
def charListLe : List Char → List Char → Bool
  | [], _ => true
  | _ :: _, [] => false
  | a :: as, b :: bs => if a = b then charListLe as bs else decide (a < b)

/-- `a ≤ b` in byte order. -/
def strLeB (a b : String) : Bool := charListLe a.data b.data

/-- Insertion of a string into a sorted list (for Rust `Vec::sort`). -/
def insertSorted (a : String) : List String → List String
  | [] => [a]
  | b :: rest => if strLeB a b then a :: b :: rest else b :: insertSorted a rest

/-- Sorting a string list (Rust `Vec::sort`, stable). -/
def sortStrings : List String → List String
  | [] => []
  | a :: rest => insertSorted a (sortStrings rest)

/-- Removal of consecutive duplicates (Rust `Vec::dedup`). -/
def dedupConsec : List String → List String
  | [] => []
  | [a] => [a]
  | a :: b :: rest => if a = b then dedupConsec (b :: rest) else a :: dedupConsec (b :: rest)

/-- First-occurrence deduplication, preserving order. -/
def dedupKeepFirst : List String → List String
  | [] => []
  | a :: rest => a :: (dedupKeepFirst rest).filter (fun b => b ≠ a)

/-- `is_file_extension`: the denylist of common extensions. -/
def isFileExtension (s : String) : Bool :=
  [ "po", "pot", "ts", "js", "py", "rs", "go", "sh", "rb", "md",
    "txt", "xml", "json", "yaml", "yml", "toml", "ini", "cfg",
    "html", "css", "scss", "less", "vue", "jsx", "tsx",
    "c", "cpp", "h", "hpp", "cs", "java", "kt", "php",
    "sql", "db", "sqlite", "log", "tmp", "bak", "old" ].contains s

/-- Full match of a character list against the language-code shape
`[a-z]{2,3}(_[A-Z]{2,3})?`. -/
def isLanguageCodeChars (cs : List Char) : Bool :=
  let low := cs.takeWhile isLowerAscii
  let rest := cs.drop low.length
  (low.length = 2 || low.length = 3) &&
  (match rest with
   | [] => true
   | '_' :: up =>
     ((up.takeWhile isUpperAscii).length = up.length) &&
     (up.length = 2 || up.length = 3)
   | _ => false)

/-- `is_language_code`: full match against `^[a-z]{2,3}(_[A-Z]{2,3})?$`. -/
def isLanguageCode (s : String) : Bool := isLanguageCodeChars s.data

/-- The leftmost match of `sep([a-z]{2,3}(?:_[A-Z]{2,3})?)$` inside a
character list: the first position holding `sep` whose entire remainder
matches the code shape; returns the captured code. -/
def trailingCodeAux (sep : Char) : List Char → Option (List Char)
  | [] => none
  | c :: rest =>
    if c = sep && isLanguageCodeChars rest then some rest
    else trailingCodeAux sep rest

/-- `find_language_codes_in_filename`: codes found at the end of the file
stem, behind `_` or `.`, sorted and deduplicated. -/
def findLanguageCodesInFilename (filename : String) : List String :=
  let file_stem := stemOf (fileNameOf filename)
  let underscore :=
    match trailingCodeAux '_' file_stem.data with
    | some code => [(⟨code⟩ : String)]
    | none => []
  let dot :=
    match trailingCodeAux '.' file_stem.data with
    | some code => [(⟨code⟩ : String)]
    | none => []
  dedupConsec (sortStrings (underscore ++ dot))

/-- `find_language_codes_in_path`: filename codes plus path components
that pass the extension denylist, the code shape, and the filesystem
verification, sorted and deduplicated. -/
def findLanguageCodesInPath (verify : String → String → Bool)
    (path : String) : List String :=
  let filename_codes := findLanguageCodesInFilename (fileNameOf path)
  let component_codes := (pathComponents path).filter fun comp =>
    !isFileExtension comp && isLanguageCode comp && verify path comp
  dedupConsec (sortStrings (filename_codes ++ component_codes))

/-- `get_source_file_priority`: `100` with no detected code, `90`/`80`/`70`
for `en`/`en_US`/`en_GB`, `10` for any other detected code. -/
def getSourceFilePriority (file_path : String) : Nat :=
  let filename := fileNameOf file_path
  match findLanguageCodesInFilename filename with
  | [] => 100
  | lang_code :: _ =>
    if lang_code = "en" then 90
    else if lang_code = "en_US" then 80
    else if lang_code = "en_GB" then 70
    else 10

/-- `select_best_source_file`: the first candidate attaining the maximal
priority (later candidates replace the best only on strictly greater
priority). -/
def selectBestSourceFile : List String → Option String
  | [] => none
  | c :: rest => some (rest.foldl
      (fun best cand =>
        if getSourceFilePriority cand > getSourceFilePriority best then cand else best)
      c)

/-- `is_english_source_file`. -/
def isEnglishSourceFile (filename : String) : Bool :=
  strContains filename "en_US" ||
  strContains filename "_en." ||
  strEndsWith filename "_en.ts" ||
  strEndsWith filename "_en.po" ||
  strEndsWith filename ".en.ts" ||
  strEndsWith filename ".en.po"

/-- `is_english_language_code`. -/
def isEnglishLanguageCode (lang_code : String) : Bool :=
  lang_code = "en" || lang_code = "en_US" || lang_code = "en_GB"

/-- `contains_non_english_language_code`. -/
def containsNonEnglishLanguageCode (filename : String) : Bool :=
  (findLanguageCodesInFilename filename).any fun code => !isEnglishLanguageCode code

/-- `get_language_folder_in_path`: the first component passing the
denylist, the code shape, and the filesystem verification. -/
def getLanguageFolderInPath (verify : String → String → Bool)
    (path : String) : Option String :=
  (pathComponents path).find? fun comp =>
    !isFileExtension comp && isLanguageCode comp && verify path comp

/-- `has_related_translation_files`: a sibling file with the same stem, an
underscore, a language-code segment and the same extension. -/
def hasRelatedTranslationFiles (source_file : String)
    (all_files : List String) : Bool :=
  let source_dir := parentOf source_file
  let source_name := stemOf (fileNameOf source_file)
  let source_ext := (extOf (fileNameOf source_file)).getD ""
  all_files.any fun file =>
    if file = source_file then false
    else if parentOf file ≠ source_dir then false
    else if ((extOf (fileNameOf file)).getD "") ≠ source_ext then false
    else
      let file_name := fileNameOf file
      if strStartsWith file_name (source_name ++ "_") then
        let suffix : String := ⟨file_name.data.drop (source_name.data.length + 1)⟩
        if strStartsWith suffix source_ext then false
        else
          let lang_part : String := ⟨suffix.data.takeWhile (fun c => c ≠ '.')⟩
          isLanguageCode lang_part
      else false

/-- `is_common_source_po_file`. -/
def isCommonSourcePoFile (filename : String) : Bool :=
  strStartsWith filename "messages" ||
  strStartsWith filename "strings" ||
  strStartsWith filename "template" ||
  strContains filename "_template" ||
  filename = "default.po" ||
  filename = "base.po"

/-- `is_likely_source_file` (paths are already relative, so the
`strip_prefix` step is the identity). -/
def isLikelySourceFile (verify : String → String → Bool)
    (all_files : List String) (file_path : String) : Bool :=
  let filename := fileNameOf file_path
  if isEnglishSourceFile filename then true
  else
    match getLanguageFolderInPath verify file_path with
    | some lang_folder => isEnglishLanguageCode lang_folder
    | none =>
      if containsNonEnglishLanguageCode filename then false
      else if hasRelatedTranslationFiles file_path all_files then true
      else if extOf (fileNameOf file_path) = some "ts" then true
      else if extOf (fileNameOf file_path) = some "po" then
        isCommonSourcePoFile filename
      else false

/-- `try_extract_pattern_from_filename`. -/
def tryExtractPatternFromFilename (path_str lang_code : String) : Option String :=
  if strContains path_str ("_" ++ lang_code) then
    some (replaceAll path_str ("_" ++ lang_code) "_<lang>")
  else if strContains path_str ("." ++ lang_code) then
    some (replaceAll path_str ("." ++ lang_code) ".<lang>")
  else
    let file_name := fileNameOf path_str
    if strStartsWith file_name (lang_code ++ ".") then
      let parent := parentOf path_str
      let ext := (extOf (fileNameOf path_str)).getD ""
      if parent = "" then some ("<lang>." ++ ext)
      else some (parent ++ "/<lang>." ++ ext)
    else none

/-- `try_extract_pattern_from_path`: replace the first path component
equal to the code by `<lang>`. -/
def tryExtractPatternFromPath (path_str lang_code : String) : Option String :=
  let comps := pathComponents path_str
  if comps.any (fun c => c = lang_code) then
    some (joinPathComponents
      (comps.map fun c => if c = lang_code then "<lang>" else c))
  else none

/-- The per-sibling scan of `infer_pattern_from_related_files`; a sibling
without an extension makes the whole inference return `none` (the `?`
operator aborts the enclosing function). -/
def inferPatternAux (file_dir file_stem file_ext : String) :
    List String → Option String
  | [] => none
  | other :: rest =>
    if parentOf other ≠ file_dir then inferPatternAux file_dir file_stem file_ext rest
    else
      let other_filename := fileNameOf other
      match extOf other_filename with
      | none => none
      | some other_ext =>
        if other_ext ≠ file_ext then inferPatternAux file_dir file_stem file_ext rest
        else
          let other_stem := stemOf other_filename
          let lang_codes := findLanguageCodesInFilename other_filename
          let hit := lang_codes.foldl
            (fun acc lang_code =>
              match acc with
              | some p => some p
              | none =>
                let expected_base := replaceAll other_stem ("_" ++ lang_code) ""
                let expected_base2 := replaceAll other_stem ("." ++ lang_code) ""
                if expected_base = file_stem || expected_base2 = file_stem then
                  tryExtractPatternFromFilename other lang_code
                else none)
            none
          match hit with
          | some p => some p
          | none => inferPatternAux file_dir file_stem file_ext rest

/-- `infer_pattern_from_related_files`. -/
def inferPatternFromRelatedFiles (file_path : String)
    (all_files : List String) : Option String :=
  let filename := fileNameOf file_path
  let file_stem := stemOf filename
  match extOf filename with
  | none => none
  | some file_ext =>
    inferPatternAux (parentOf file_path) file_stem file_ext all_files

/-- `get_translation_pattern_with_inference`. -/
def getTranslationPatternWithInference (verify : String → String → Bool)
    (file_path : String) (all_files : List String) : String :=
  let path_str := file_path
  let detected_langs := findLanguageCodesInPath verify file_path
  let fromCodes := detected_langs.foldl
    (fun acc lang_code =>
      match acc with
      | some p => some p
      | none =>
        match tryExtractPatternFromFilename path_str lang_code with
        | some p => some p
        | none => tryExtractPatternFromPath path_str lang_code)
    none
  match fromCodes with
  | some p => p
  | none =>
    if detected_langs.isEmpty then
      match inferPatternFromRelatedFiles file_path all_files with
      | some p => p
      | none => path_str
    else path_str

/-- `identify_source_files`: keep the likely sources, group them by their
inferred pattern key (grouping preserves file order within a key; the
`HashMap` key order is normalized away by the final sort), pick the best
of each family, and sort. -/
def identifySourceFiles (verify : String → String → Bool)
    (all_files : List String) : List String :=
  let cands := all_files.filter (isLikelySourceFile verify all_files)
  let keyOf := fun f => getTranslationPatternWithInference verify f all_files
  let keys := dedupKeepFirst (cands.map keyOf)
  let selected := keys.filterMap fun k =>
    selectBestSourceFile (cands.filter fun f => keyOf f = k)
  sortStrings selected

/- ===================== Reverse discovery =====================

Embedding of the directory-component branch of
`Filter::match_target_files` (`src/transifex/yaml_file.rs`, lines
110-158), taken when the template's final component does not contain
`<lang>`.  Paths are component lists (each component a `Normal` one); the
filesystem is abstracted by a directory listing and a file predicate. -/

/-- The filesystem view used by reverse discovery: `readDir` lists the
entry names of a directory (`none` for a read failure), `isFile` tells
whether a path is an existing regular file. -/
structure DirFs where
  readDir : List String → Option (List String)
  isFile : List String → Bool

/-- A character of the class `[a-z_A-Z]`. -/
def isLangShapeChar (c : Char) : Bool :=
  isLowerAscii c || isUpperAscii c || c = '_'

/-- Rust `Regex::new("[a-z_A-Z]{2,6}").is_match(name)`: the regex is
unanchored, so it matches exactly when the name contains two adjacent
characters of the class. -/
def langShapeSearch (name : String) : Bool :=
  (name.data.zip name.data.tail).any fun p =>
    isLangShapeChar p.1 && isLangShapeChar p.2

/-- Split a component list at the first component equal to `<lang>`,
as the driver loop of the directory branch does: everything before it
forms the parent directory, everything after it the remaining relative
path. -/
def splitAtLangComponent : List String → Option (List String × List String)
  | [] => none
  | comp :: rest =>
    if comp = "<lang>" then some ([], rest)
    else
      match splitAtLangComponent rest with
      | some (prefixDir, remain) => some (comp :: prefixDir, remain)
      | none => none

/-- The directory branch of `Filter::match_target_files`: split the
template at the `<lang>` component (an error when absent), list the
parent directory (an error on failure), and emit `(name, resolved path)`
for every entry whose name passes the unanchored shape search and whose
resolved path is a file. -/
def matchTargetFilesLangDir (fsys : DirFs) (template : List String) :
    Except String (List (String × List String)) :=
  match splitAtLangComponent template with
  | none => .error "Missing <lang> inside the pattern."
  | some (parent_dir, remain_path) =>
    match fsys.readDir parent_dir with
    | none => .error "read_dir failure"
    | some entries =>
      .ok (entries.filterMap fun language_folder =>
        if langShapeSearch language_folder then
          let matched_file := parent_dir ++ language_folder :: remain_path
          if fsys.isFile matched_file then
            some (language_folder, matched_file)
          else none
        else none)

/-- The anchored reading of the coarse language-code shape
`[A-Za-z_]{2,6}`: the whole name consists of 2 to 6 characters of the
class.  This definition follows the spec's words (not the source) and
exists to be compared with the behaviour of `matchTargetFilesLangDir`. -/
def langShapeAnchoredSpec (name : String) : Bool :=
  2 ≤ name.data.length && name.data.length ≤ 6 &&
  name.data.all isLangShapeChar

/- ===================== Helper lemmas ===================== -/

theorem except_bind_ok {ε α β : Type} {x : Except ε α} {f : α → Except ε β} {b : β} :
    (x >>= f) = .ok b ↔ ∃ a, x = .ok a ∧ f a = .ok b := by
  cases x with
  | error e => simp [Bind.bind, Except.bind]
  | ok a => simp [Bind.bind, Except.bind]

theorem mapM2_cons {ε α β γ : Type} (f : α → β → Except ε γ) (a : α) (b : β)
    (as : List α) (bs : List β) :
    mapM2 f (a :: as) (b :: bs) =
      f a b >>= fun c => mapM2 f as bs >>= fun cs => pure (c :: cs) := rfl

theorem mapM2_ok_get {ε α β γ : Type} {f : α → β → Except ε γ} :
    ∀ {as : List α} {bs : List β} {cs : List γ}, mapM2 f as bs = .ok cs →
    ∀ {i : Nat} {a : α} {b : β}, as.get? i = some a → bs.get? i = some b →
    ∃ c, f a b = .ok c ∧ cs.get? i = some c := by
  intro as
  induction as with
  | nil => intro bs cs _ i a b ha; simp [List.get?] at ha
  | cons a0 as ih =>
    intro bs cs h i a b ha hb
    cases bs with
    | nil => simp [List.get?] at hb
    | cons b0 bs =>
      rw [mapM2_cons, except_bind_ok] at h
      obtain ⟨c0, hc0, h⟩ := h
      rw [except_bind_ok] at h
      obtain ⟨cs0, hcs0, h⟩ := h
      simp only [pure, Except.pure, Except.ok.injEq] at h
      subst h
      cases i with
      | zero =>
        simp only [List.get?] at ha hb
        obtain rfl : a0 = a := by injection ha
        obtain rfl : b0 = b := by injection hb
        exact ⟨c0, hc0, rfl⟩
      | succ i =>
        simp only [List.get?] at ha hb ⊢
        exact ih hcs0 ha hb

theorem mapM2_ok_pairs {ε α β γ : Type} {f : α → β → Except ε γ} :
    ∀ {as : List α} {bs : List β} {cs : List γ}, mapM2 f as bs = .ok cs →
    ∀ {i : Nat} {c : γ}, cs.get? i = some c →
    ∃ a b, as.get? i = some a ∧ bs.get? i = some b ∧ f a b = .ok c := by
  intro as
  induction as with
  | nil =>
    intro bs cs h i c hc
    have : cs = [] := by
      cases bs <;> simpa [mapM2, pure, Except.pure] using h.symm
    subst this
    simp [List.get?] at hc
  | cons a0 as ih =>
    intro bs cs h i c hc
    cases bs with
    | nil =>
      have : cs = [] := by simpa [mapM2, pure, Except.pure] using h.symm
      subst this
      simp [List.get?] at hc
    | cons b0 bs =>
      rw [mapM2_cons, except_bind_ok] at h
      obtain ⟨c0, hc0, h⟩ := h
      rw [except_bind_ok] at h
      obtain ⟨cs0, hcs0, h⟩ := h
      simp only [pure, Except.pure, Except.ok.injEq] at h
      subst h
      cases i with
      | zero =>
        simp only [List.get?] at hc ⊢
        obtain rfl : c0 = c := by injection hc
        exact ⟨a0, b0, rfl, rfl, hc0⟩
      | succ i =>
        simp only [List.get?] at hc ⊢
        exact ih hcs0 hc

theorem mapM2_ok_length {ε α β γ : Type} {f : α → β → Except ε γ} :
    ∀ {as : List α} {bs : List β} {cs : List γ}, mapM2 f as bs = .ok cs →
    cs.length = min as.length bs.length := by
  intro as
  induction as with
  | nil =>
    intro bs cs h
    have : cs = [] := by
      cases bs <;> simpa [mapM2, pure, Except.pure] using h.symm
    simp [this]
  | cons a0 as ih =>
    intro bs cs h
    cases bs with
    | nil =>
      have : cs = [] := by simpa [mapM2, pure, Except.pure] using h.symm
      simp [this]
    | cons b0 bs =>
      rw [mapM2_cons, except_bind_ok] at h
      obtain ⟨c0, _, h⟩ := h
      rw [except_bind_ok] at h
      obtain ⟨cs0, hcs0, h⟩ := h
      simp only [pure, Except.pure, Except.ok.injEq] at h
      subst h
      have := ih hcs0
      simp only [List.length_cons, this]
      omega

theorem mapM2_total_ok {ε α β γ : Type} {f : α → β → Except ε γ}
    (htot : ∀ a b, ∃ c, f a b = .ok c) :
    ∀ (as : List α) (bs : List β), ∃ cs, mapM2 f as bs = .ok cs := by
  intro as
  induction as with
  | nil => intro bs; cases bs <;> exact ⟨[], rfl⟩
  | cons a0 as ih =>
    intro bs
    cases bs with
    | nil => exact ⟨[], rfl⟩
    | cons b0 bs =>
      obtain ⟨c0, hc0⟩ := htot a0 b0
      obtain ⟨cs0, hcs0⟩ := ih bs
      refine ⟨c0 :: cs0, ?_⟩
      rw [mapM2_cons, except_bind_ok]
      refine ⟨c0, hc0, ?_⟩
      rw [except_bind_ok]
      exact ⟨cs0, hcs0, rfl⟩

theorem mapM2_error_at {ε α β γ : Type} {f : α → β → Except ε γ} {e : ε} :
    ∀ (i : Nat) (as : List α) (bs : List β) (ai : α) (bi : β),
    (∀ j a b, j < i → as.get? j = some a → bs.get? j = some b → ∃ c, f a b = .ok c) →
    as.get? i = some ai → bs.get? i = some bi → f ai bi = .error e →
    mapM2 f as bs = .error e := by
  intro i
  induction i with
  | zero =>
    intro as bs ai bi _ ha hb hf
    cases as with
    | nil => simp [List.get?] at ha
    | cons a0 as =>
      cases bs with
      | nil => simp [List.get?] at hb
      | cons b0 bs =>
        simp only [List.get?] at ha hb
        obtain rfl : a0 = ai := by injection ha
        obtain rfl : b0 = bi := by injection hb
        rw [mapM2_cons, hf]
        rfl
  | succ i ih =>
    intro as bs ai bi hpre ha hb hf
    cases as with
    | nil => simp [List.get?] at ha
    | cons a0 as =>
      cases bs with
      | nil => simp [List.get?] at hb
      | cons b0 bs =>
        simp only [List.get?] at ha hb
        obtain ⟨c0, hc0⟩ := hpre 0 a0 b0 (Nat.succ_pos i) rfl rfl
        have hrec : mapM2 f as bs = .error e := by
          refine ih as bs ai bi ?_ ha hb hf
          intro j a b hj hja hjb
          exact hpre (j + 1) a b (Nat.succ_lt_succ hj) hja hjb
        rw [mapM2_cons, hc0]
        show (mapM2 f as bs >>= fun cs => pure (c0 :: cs)) = .error e
        rw [hrec]
        rfl

/- ===================== Claim C7 ===================== -/

/-- C7: the shown buckets of `MessageStats` merge fuzzy into unfinished
(`shown_unfinished = unfinished + fuzzy`) and vanished into obsolete
(`shown_obsolete = obsolete + vanished`); the completeness percentage is
`finished / (finished + unfinished) × 100` over the shown buckets, against
the pair's own total (zero-argument form) or an externally supplied
reference total, and is `0` whenever the denominator is `0`. -/
theorem c7_theorem (s : MessageStats) :
    s.shown_unfinished = s.unfinished + s.fuzzy ∧
    s.shown_obsolete = s.obsolete + s.vanished ∧
    s.completeness_percentage =
      (if s.finished + (s.unfinished + s.fuzzy) = 0 then 0
       else (s.finished : ℚ) / ((s.finished : ℚ) + ((s.unfinished : ℚ) + (s.fuzzy : ℚ))) * 100) ∧
    (∀ r : Nat, s.completeness_percentage_ref (some r) =
      (if r = 0 then 0 else (s.finished : ℚ) / (r : ℚ) * 100)) ∧
    s.completeness_percentage_ref none = s.completeness_percentage := by
  refine ⟨rfl, rfl, ?_, ?_, rfl⟩
  · unfold MessageStats.completeness_percentage MessageStats.shown_translated
      MessageStats.shown_unfinished
    by_cases h : s.finished + (s.unfinished + s.fuzzy) = 0
    · rw [if_pos h, if_pos h]
    · rw [if_neg h, if_neg h]
      push_cast
      ring
  · intro r
    unfold MessageStats.completeness_percentage_ref MessageStats.shown_translated
    by_cases h : r = 0
    · simp [h, Option.getD]
    · simp [h, Option.getD]

/- ===================== Claim C8 ===================== -/

/-- C8 counterexample: for the path `file.TS` the detected kind is
Linguist although the file extension is `TS`, not `ts` — detection
lowercases the extension first, so "Linguist exactly when the extension is
`.ts`" fails as stated. -/
theorem c8_counterexample :
    I18nFileKind.from_ext_hint "file.TS" = .ok .linguist ∧
    extOf (fileNameOf "file.TS") = some "TS" ∧ ("TS" : String) ≠ "ts" := by
  refine ⟨rfl, rfl, by decide⟩

/-- C8 (amended): kind detection ASCII-lowercases the extension first:
Linguist exactly when the lowercased extension is `ts`, Gettext exactly
when it is `po` or `pot`, and an unknown-extension error otherwise,
including for paths with no extension (whose error carries the empty
string). -/
theorem c8_theorem (p : String) :
    (I18nFileKind.from_ext_hint p = .ok .linguist ↔
      (extOf (fileNameOf p)).map toLowerAscii = some "ts") ∧
    (I18nFileKind.from_ext_hint p = .ok .gettext ↔
      ((extOf (fileNameOf p)).map toLowerAscii = some "po" ∨
       (extOf (fileNameOf p)).map toLowerAscii = some "pot")) ∧
    (extOf (fileNameOf p) = none → I18nFileKind.from_ext_hint p = .error ⟨""⟩) ∧
    (∀ s, (extOf (fileNameOf p)).map toLowerAscii = some s →
      s ≠ "ts" → s ≠ "po" → s ≠ "pot" →
      I18nFileKind.from_ext_hint p = .error ⟨s⟩) := by
  unfold I18nFileKind.from_ext_hint
  cases h : (extOf (fileNameOf p)).map toLowerAscii with
  | none =>
    have hext : extOf (fileNameOf p) = none := by
      cases hx : extOf (fileNameOf p)
      · rfl
      · rw [hx] at h; simp [Option.map] at h
    refine ⟨by simp, by simp, fun _ => rfl, fun s hs => by simp at hs⟩
  | some s =>
    have hext : extOf (fileNameOf p) ≠ none := by
      intro hx; rw [hx] at h; simp [Option.map] at h
    by_cases h1 : s = "ts"
    · subst h1
      refine ⟨by simp, by simp, fun hx => absurd hx hext, ?_⟩
      intro t ht h2 _ _
      injection ht with ht
      exact absurd ht.symm h2
    · by_cases h2 : s = "po"
      · subst h2
        refine ⟨by simp [h1], by simp, fun hx => absurd hx hext, ?_⟩
        intro t ht _ h3 _
        injection ht with ht
        exact absurd ht.symm h3
      · by_cases h3 : s = "pot"
        · subst h3
          refine ⟨by simp [h1], by simp [h2], fun hx => absurd hx hext, ?_⟩
          intro t ht _ _ h4
          injection ht with ht
          exact absurd ht.symm h4
        · refine ⟨by simp [h1, h2, h3], by simp [h1, h2, h3], fun hx => absurd hx hext, ?_⟩
          intro t ht _ _ _
          injection ht with ht
          subst ht
          simp [h1, h2, h3]

/-- C8 witness: the amended statement applied at `dir/app.Pot` (extension
`Pot`, lowercased `pot`, hence Gettext). -/
theorem c8_witness : I18nFileKind.from_ext_hint "dir/app.Pot" = .ok .gettext := by
  have h := c8_theorem "dir/app.Pot"
  exact h.2.1.mpr (Or.inr rfl)

/- ===================== Propagation lemmas ===================== -/

theorem translateMessage_total {V : Type} (parse : String → Option V)
    (z : String → V → String) (lang : String) (variant : V)
    (hp : parse (correctLanguageCode lang) = some variant) (sm m : Message) :
    ∃ m', translateMessage parse z lang sm m = .ok m' := by
  unfold translateMessage
  by_cases h1 : m.translation.type_attr ≠ some .unfinished
  · exact ⟨m, by rw [if_pos h1]; rfl⟩
  · rw [if_neg h1]
    by_cases h2 : sm.translation.type_attr = some .unfinished
    · exact ⟨m, by rw [if_pos h2]; rfl⟩
    · rw [if_neg h2]
      cases hv : sm.translation.value with
      | none => exact ⟨m, rfl⟩
      | some v =>
        refine ⟨m.fill_translation (z v variant), ?_⟩
        show (zhconvWrapper parse z v lang >>= fun c => pure (m.fill_translation c)) = _
        unfold zhconvWrapper
        rw [hp]
        rfl

theorem translateMessage_ok_cases {V : Type} {parse : String → Option V}
    {z : String → V → String} {lang : String} {sm m m' : Message}
    (h : translateMessage parse z lang sm m = .ok m') :
    (¬(m.translation.type_attr = some .unfinished ∧
       sm.translation.type_attr ≠ some .unfinished ∧
       ∃ v, sm.translation.value = some v) ∧ m' = m) ∨
    ∃ v variant,
      m.translation.type_attr = some .unfinished ∧
      sm.translation.type_attr ≠ some .unfinished ∧
      sm.translation.value = some v ∧
      parse (correctLanguageCode lang) = some variant ∧
      m' = m.fill_translation (z v variant) := by
  unfold translateMessage at h
  by_cases h1 : m.translation.type_attr ≠ some .unfinished
  · rw [if_pos h1] at h
    left
    have hp : (pure m : Except CmdError Message) = .ok m := rfl
    rw [hp] at h
    injection h with h
    exact ⟨fun hc => h1 hc.1, h.symm⟩
  · rw [if_neg h1] at h
    push_neg at h1
    by_cases h2 : sm.translation.type_attr = some .unfinished
    · rw [if_pos h2] at h
      left
      have hp : (pure m : Except CmdError Message) = .ok m := rfl
      rw [hp] at h
      injection h with h
      exact ⟨fun hc => hc.2.1 h2, h.symm⟩
    · rw [if_neg h2] at h
      cases hv : sm.translation.value with
      | none =>
        rw [hv] at h
        left
        have hp : (pure m : Except CmdError Message) = .ok m := rfl
        rw [hp] at h
        injection h with h
        refine ⟨fun hc => ?_, h.symm⟩
        obtain ⟨_, _, v, hv'⟩ := hc
        exact Option.noConfusion hv'
      | some v =>
        rw [hv] at h
        right
        have h' : (zhconvWrapper parse z v lang >>= fun c => pure (m.fill_translation c)) = .ok m' := h
        rw [except_bind_ok] at h'
        obtain ⟨c, hc, hpure⟩ := h'
        unfold zhconvWrapper at hc
        cases hpv : parse (correctLanguageCode lang) with
        | none => rw [hpv] at hc; exact absurd hc (by simp)
        | some variant =>
          rw [hpv] at hc
          injection hc with hc
          subst hc
          refine ⟨v, variant, h1, h2, rfl, rfl, ?_⟩
          have hp : (pure (m.fill_translation (z v variant)) : Except CmdError Message)
              = .ok (m.fill_translation (z v variant)) := rfl
          rw [hp] at hpure
          injection hpure with hpure
          exact hpure.symm

theorem translateContext_total {V : Type} (parse : String → Option V)
    (z : String → V → String) (lang : String) (variant : V)
    (hp : parse (correctLanguageCode lang) = some variant) (sctx ctx : Context)
    (hlen : ctx.messages.length = sctx.messages.length) :
    ∃ ctx', translateContext parse z lang sctx ctx = .ok ctx' := by
  unfold translateContext
  rw [if_neg (by simp [hlen])]
  obtain ⟨msgs, hmsgs⟩ := mapM2_total_ok
    (fun sm m => translateMessage_total parse z lang variant hp sm m)
    sctx.messages ctx.messages
  refine ⟨{ ctx with messages := msgs }, ?_⟩
  show (mapM2 (translateMessage parse z lang) sctx.messages ctx.messages >>=
    fun msgs => pure { ctx with messages := msgs }) = _
  rw [hmsgs]
  rfl

theorem translateContext_ok_inv {V : Type} {parse : String → Option V}
    {z : String → V → String} {lang : String} {sctx ctx ctx' : Context}
    (h : translateContext parse z lang sctx ctx = .ok ctx') :
    ctx.messages.length = sctx.messages.length ∧
    ∃ msgs, mapM2 (translateMessage parse z lang) sctx.messages ctx.messages = .ok msgs ∧
      ctx' = { ctx with messages := msgs } := by
  unfold translateContext at h
  by_cases hlen : ctx.messages.length ≠ sctx.messages.length
  · rw [if_pos hlen] at h
    exact absurd h (by simp)
  · rw [if_neg hlen] at h
    push_neg at hlen
    refine ⟨hlen, ?_⟩
    have h' : (mapM2 (translateMessage parse z lang) sctx.messages ctx.messages >>=
        fun msgs => pure { ctx with messages := msgs }) = .ok ctx' := h
    rw [except_bind_ok] at h'
    obtain ⟨msgs, hmsgs, hpure⟩ := h'
    refine ⟨msgs, hmsgs, ?_⟩
    have : (pure { ctx with messages := msgs } : Except CmdError Context)
        = .ok { ctx with messages := msgs } := rfl
    rw [this] at hpure
    injection hpure with hpure
    exact hpure.symm

theorem translateTsContent_ok_inv {V : Type} {parse : String → Option V}
    {z : String → V → String} {src tgt tgt' : Ts}
    (h : translateTsContent parse z src tgt = .ok tgt') :
    ∃ lang, tgt.get_language = some lang ∧
      tgt.contexts.length = src.contexts.length ∧
      ∃ ctxs, mapM2 (translateContext parse z lang) src.contexts tgt.contexts = .ok ctxs ∧
        tgt' = { tgt with contexts := ctxs } := by
  unfold translateTsContent at h
  split at h
  · exact absurd h (by simp)
  · rename_i lang hl
    split at h
    · exact absurd h (by simp)
    · rename_i hlen
      push_neg at hlen
      refine ⟨lang, hl, hlen, ?_⟩
      have h' : (mapM2 (translateContext parse z lang) src.contexts tgt.contexts >>=
          fun ctxs => pure { tgt with contexts := ctxs }) = .ok tgt' := h
      rw [except_bind_ok] at h'
      obtain ⟨ctxs, hctxs, hpure⟩ := h'
      refine ⟨ctxs, hctxs, ?_⟩
      have hp : (pure { tgt with contexts := ctxs } : Except CmdError Ts)
          = .ok { tgt with contexts := ctxs } := rfl
      rw [hp] at hpure
      injection hpure with hpure
      exact hpure.symm

/- ===================== Concrete fixtures ===================== -/

/-- A parse function accepting every language code (the code itself is the
conversion variant). -/
def parseAll : String → Option String := fun s => some s

/-- A converter returning the text unchanged. -/
def zId : String → String → String := fun t _ => t

/-- A Linguist message with no locations, no comment and no plural data. -/
def mkMessage (t : Option TranslationType) (v : Option String) : Message :=
  { location := [], source := "src",
    translation := { type_attr := t, value := v, numerus_forms := [] },
    comment := none, numerus := none }

/- ===================== Claim C1 ===================== -/

def c1_src : Ts :=
  { language := some "zh_CN", version := "2.1",
    contexts := [{ name := "C", messages := [mkMessage none none] }] }

def c1_tgt : Ts :=
  { language := some "zh_TW", version := "2.1",
    contexts := [{ name := "C", messages := [mkMessage (some .unfinished) none] }] }

/-- C1 counterexample: the single source entry is Finished (no type
attribute) but carries no translation value; propagation succeeds yet the
paired Unfinished target entry keeps status Unfinished — it does not
become Finished as the claim states. -/
theorem c1_counterexample :
    translateTsContent parseAll zId c1_src c1_tgt = .ok c1_tgt ∧
    ((c1_src.contexts.get? 0).bind (fun c => c.messages.get? 0)).map
      (fun m => m.translation.type_attr) = some none ∧
    ((c1_tgt.contexts.get? 0).bind (fun c => c.messages.get? 0)).map
      (fun m => m.translation.type_attr) = some (some .unfinished) := by
  refine ⟨rfl, rfl, rfl⟩

/-- C1 (amended): after a successful propagation, every target entry whose
status was Unfinished, whose same-position source entry was Finished (no
type attribute) and whose source entry carries a translation value, has
status Finished and its translation value equal to the script-converted
source value for the target's language code. -/
theorem c1_theorem {V : Type} (parse : String → Option V) (z : String → V → String)
    (src tgt tgt' : Ts) (lang : String) (i j : Nat)
    (ctx sctx : Context) (m sm : Message) (v : String)
    (hok : translateTsContent parse z src tgt = .ok tgt')
    (hlang : tgt.get_language = some lang)
    (hctx : tgt.contexts.get? i = some ctx)
    (hm : ctx.messages.get? j = some m)
    (hsctx : src.contexts.get? i = some sctx)
    (hsm : sctx.messages.get? j = some sm)
    (hunf : m.translation.type_attr = some .unfinished)
    (hfin : sm.translation.type_attr = none)
    (hval : sm.translation.value = some v) :
    ∃ ctx' m' variant, tgt'.contexts.get? i = some ctx' ∧
      ctx'.messages.get? j = some m' ∧
      parse (correctLanguageCode lang) = some variant ∧
      m'.translation.type_attr = none ∧
      m'.translation.value = some (z v variant) := by
  obtain ⟨lang0, hl0, hlen, ctxs, hctxs, rfl⟩ := translateTsContent_ok_inv hok
  have hlang' : lang0 = lang := by
    rw [hlang] at hl0
    injection hl0 with h
    exact h.symm
  subst hlang'
  obtain ⟨ctx', hctx', hcget⟩ := mapM2_ok_get hctxs hsctx hctx
  obtain ⟨_, msgs, hmsgs, rfl⟩ := translateContext_ok_inv hctx'
  obtain ⟨m', hm', hmget⟩ := mapM2_ok_get hmsgs hsm hm
  rcases translateMessage_ok_cases hm' with ⟨hnot, rfl⟩ | ⟨v0, variant, _, _, hval0, hpv, rfl⟩
  · exact absurd ⟨hunf, by simp [hfin], ⟨v, hval⟩⟩ hnot
  · have hv : v0 = v := by
      rw [hval] at hval0
      injection hval0 with h
      exact h.symm
    subst hv
    exact ⟨_, _, variant, hcget, hmget, hpv, rfl, rfl⟩

/-- C1 witness: the amended statement applied to a concrete pair where the
fill happens. -/
theorem c1_witness :
    ∃ ctx' m' variant,
      (({ language := some "zh_TW", version := "2.1",
          contexts := [{ name := "C", messages := [mkMessage none (some "text")] }] } : Ts)).contexts.get? 0 = some ctx' ∧
      ctx'.messages.get? 0 = some m' ∧
      parseAll (correctLanguageCode "zh_TW") = some variant ∧
      m'.translation.type_attr = none ∧
      m'.translation.value = some (zId "text" variant) :=
  c1_theorem parseAll zId
    { language := some "zh_CN", version := "2.1",
      contexts := [{ name := "C", messages := [mkMessage none (some "text")] }] }
    { language := some "zh_TW", version := "2.1",
      contexts := [{ name := "C", messages := [mkMessage (some .unfinished) none] }] }
    { language := some "zh_TW", version := "2.1",
      contexts := [{ name := "C", messages := [mkMessage none (some "text")] }] }
    "zh_TW" 0 0
    { name := "C", messages := [mkMessage (some .unfinished) none] }
    { name := "C", messages := [mkMessage none (some "text")] }
    (mkMessage (some .unfinished) none)
    (mkMessage none (some "text"))
    "text" rfl rfl rfl rfl rfl rfl rfl rfl rfl

/- ===================== Claim C2 ===================== -/

def c2_src : Ts :=
  { language := some "zh_CN", version := "1",
    contexts := [{ name := "C", messages := [] }] }

def c2_tgt : Ts :=
  { language := some "zh_TW", version := "1", contexts := [] }

/-- C2 counterexample: with one source context against zero target
contexts, propagation returns `DifferentContexts "zh_TW"` — an error that
carries only the target language code, not the counts (no
`DifferentMessages` payload), so "the named structural error …, carrying
the counts" fails as stated for the context-count case. -/
theorem c2_counterexample :
    c2_src.contexts.length = 1 ∧ c2_tgt.contexts.length = 0 ∧
    translateTsContent parseAll zId c2_src c2_tgt =
      .error (.differentContexts "zh_TW") ∧
    CmdError.differentContexts "zh_TW" ≠ CmdError.differentMessages "zh_TW" 1 0 := by
  refine ⟨rfl, rfl, rfl, fun h => CmdError.noConfusion h⟩

/-- C2 (amended): a group-count mismatch makes propagation return
`DifferentContexts` carrying the target language code; with group counts
equal and a parsable target language, the first group with diverging entry
counts produces `DifferentMessages` carrying the language and the source
and target counts; a successful propagation implies full alignment (the
mismatch is never tolerated by skipping entries); and a translate failure
makes the save pass return immediately with the store unchanged — the
failing target is never saved. -/
theorem c2_theorem {V : Type} (parse : String → Option V) (z : String → V → String) :
    (∀ (src tgt : Ts) (lang : String),
      tgt.get_language = some lang →
      tgt.contexts.length ≠ src.contexts.length →
      translateTsContent parse z src tgt = .error (.differentContexts lang)) ∧
    (∀ (src tgt : Ts) (lang : String) (variant : V) (i : Nat) (sctx ctx : Context),
      tgt.get_language = some lang →
      parse (correctLanguageCode lang) = some variant →
      tgt.contexts.length = src.contexts.length →
      (∀ j sctx0 ctx0, j < i → src.contexts.get? j = some sctx0 →
        tgt.contexts.get? j = some ctx0 →
        ctx0.messages.length = sctx0.messages.length) →
      src.contexts.get? i = some sctx →
      tgt.contexts.get? i = some ctx →
      ctx.messages.length ≠ sctx.messages.length →
      translateTsContent parse z src tgt =
        .error (.differentMessages lang sctx.messages.length ctx.messages.length)) ∧
    (∀ (src tgt tgt' : Ts),
      translateTsContent parse z src tgt = .ok tgt' →
      tgt.contexts.length = src.contexts.length ∧
      ∀ i sctx ctx, src.contexts.get? i = some sctx →
        tgt.contexts.get? i = some ctx →
        ctx.messages.length = sctx.messages.length) ∧
    (∀ (savePolicy : String → Bool) (source : ZhConvFile) (p : String)
      (d : ZhConvFile) (rest : List (String × ZhConvFile)) (fs : FileStore)
      (e : CmdError),
      d.translate_content_based_on parse z source = .error e →
      saveTargets parse z savePolicy source ((p, d) :: rest) fs = (fs, [], .error e)) := by
  refine ⟨?_, ?_, ?_, ?_⟩
  · intro src tgt lang hlang hlen
    unfold translateTsContent
    simp only [hlang]
    rw [if_pos hlen]
  · intro src tgt lang variant i sctx ctx hlang hp hlen halign hsctx hctx hne
    unfold translateTsContent
    simp only [hlang]
    rw [if_neg (by simp [hlen])]
    have herr : translateContext parse z lang sctx ctx =
        .error (.differentMessages lang sctx.messages.length ctx.messages.length) := by
      unfold translateContext
      rw [if_pos hne]
    have hmap : mapM2 (translateContext parse z lang) src.contexts tgt.contexts =
        .error (.differentMessages lang sctx.messages.length ctx.messages.length) := by
      refine mapM2_error_at i src.contexts tgt.contexts sctx ctx ?_ hsctx hctx herr
      intro j a b hj hja hjb
      exact translateContext_total parse z lang variant hp a b (halign j a b hj hja hjb)
    show (mapM2 (translateContext parse z lang) src.contexts tgt.contexts >>=
      fun ctxs => pure { tgt with contexts := ctxs }) = _
    rw [hmap]
    rfl
  · intro src tgt tgt' hok
    obtain ⟨lang, _, hlen, ctxs, hctxs, _⟩ := translateTsContent_ok_inv hok
    refine ⟨hlen, ?_⟩
    intro i sctx ctx hsctx hctx
    obtain ⟨ctx', hctx', _⟩ := mapM2_ok_get hctxs hsctx hctx
    exact (translateContext_ok_inv hctx').1
  · intro savePolicy source p d rest fs e h
    unfold saveTargets
    rw [h]

def c2b_src : Ts :=
  { language := some "zh_CN", version := "1",
    contexts := [{ name := "C", messages := [mkMessage none (some "t")] }] }

def c2b_tgt : Ts :=
  { language := some "zh_TW", version := "1",
    contexts := [{ name := "C", messages := [] }] }

/-- C2 witness: the amended statement applied at concrete mismatching
pairs (context-count case, message-count case, and the unchanged store of
the save pass on a translate failure). -/
theorem c2_witness :
    translateTsContent parseAll zId c2_src c2_tgt =
      .error (.differentContexts "zh_TW") ∧
    translateTsContent parseAll zId c2b_src c2b_tgt =
      .error (.differentMessages "zh_TW" 1 0) ∧
    saveTargets parseAll zId (fun _ => true) (.linguist c2_src)
      [("p", .linguist c2_tgt)] [] = ([], [], .error (.differentContexts "zh_TW")) :=
  ⟨(c2_theorem parseAll zId).1 c2_src c2_tgt "zh_TW" rfl (by decide),
   (c2_theorem parseAll zId).2.1 c2b_src c2b_tgt "zh_TW" "zh-TW" 0
     { name := "C", messages := [mkMessage none (some "t")] }
     { name := "C", messages := [] }
     rfl rfl rfl (fun j _ _ hj => absurd hj (Nat.not_lt_zero j)) rfl rfl (by decide),
   (c2_theorem parseAll zId).2.2.2 (fun _ => true) (.linguist c2_src) "p"
     (.linguist c2_tgt) [] [] (.differentContexts "zh_TW") rfl⟩

/- ===================== Gettext propagation lemmas ===================== -/

theorem translatePoMessage_ok_cases {V : Type} {parse : String → Option V}
    {z : String → V → String} {lang : String} {rm m m' : PoMessage}
    (h : translatePoMessage parse z lang rm m = .ok m') :
    m' = m ∨ (m.is_plural = false ∧ m.is_translated = false ∧ rm.is_translated = true ∧
      ∃ s variant, rm.msgstr = some s ∧ parse (correctLanguageCode lang) = some variant ∧
        m' = m.set_msgstr (z s variant)) := by
  unfold translatePoMessage at h
  by_cases h1 : m.is_translated = true
  · rw [if_pos h1] at h
    left
    have hp : (pure m : Except CmdError PoMessage) = .ok m := rfl
    rw [hp] at h
    injection h with h
    exact h.symm
  · rw [if_neg h1] at h
    by_cases h2 : (rm.is_translated && !m.is_translated && !m.is_plural) = true
    · rw [if_pos h2] at h
      simp only [Bool.and_eq_true, Bool.not_eq_true'] at h2
      obtain ⟨⟨hrt, hmt⟩, hmp⟩ := h2
      cases hs : rm.msgstr with
      | none => rw [hs] at h; exact absurd h (by simp)
      | some s =>
        rw [hs] at h
        right
        have h' : (zhconvWrapper parse z s lang >>= fun c => pure (m.set_msgstr c)) = .ok m' := h
        rw [except_bind_ok] at h'
        obtain ⟨c, hc, hpure⟩ := h'
        unfold zhconvWrapper at hc
        cases hpv : parse (correctLanguageCode lang) with
        | none => rw [hpv] at hc; exact absurd hc (by simp)
        | some variant =>
          rw [hpv] at hc
          injection hc with hc
          subst hc
          have hp : (pure (m.set_msgstr (z s variant)) : Except CmdError PoMessage)
              = .ok (m.set_msgstr (z s variant)) := rfl
          rw [hp] at hpure
          injection hpure with hpure
          exact ⟨hmp, hmt, hrt, s, variant, rfl, rfl, hpure.symm⟩
    · rw [if_neg h2] at h
      left
      have hp : (pure m : Except CmdError PoMessage) = .ok m := rfl
      rw [hp] at h
      injection h with h
      exact h.symm

theorem translatePoContent_ok_inv {V : Type} {parse : String → Option V}
    {z : String → V → String} {src tgt tgt' : Po}
    (h : translatePoContent parse z src tgt = .ok tgt') :
    tgt.messages.length = src.messages.length ∧
    ∃ msgs, mapM2 (translatePoMessage parse z tgt.get_language)
        src.messages tgt.messages = .ok msgs ∧
      tgt' = { tgt with messages := msgs } := by
  unfold translatePoContent at h
  by_cases hlen : tgt.messages.length ≠ src.messages.length
  · rw [if_pos hlen] at h
    exact absurd h (by simp)
  · rw [if_neg hlen] at h
    push_neg at hlen
    refine ⟨hlen, ?_⟩
    have h' : (mapM2 (translatePoMessage parse z tgt.get_language) src.messages
        tgt.messages >>= fun msgs => pure { tgt with messages := msgs }) = .ok tgt' := h
    rw [except_bind_ok] at h'
    obtain ⟨msgs, hmsgs, hpure⟩ := h'
    refine ⟨msgs, hmsgs, ?_⟩
    have hp : (pure { tgt with messages := msgs } : Except CmdError Po)
        = .ok { tgt with messages := msgs } := rfl
    rw [hp] at hpure
    injection hpure with hpure
    exact hpure.symm

/- ===================== Claim C3 ===================== -/

def c3_msg : Message :=
  { location := [], source := "src",
    translation := { type_attr := none, value := some "t", numerus_forms := ["f"] },
    comment := none, numerus := some "yes" }

def c3_ts : Ts :=
  { language := some "zh_CN", version := "1",
    contexts := [{ name := "C", messages := [c3_msg] }] }

/-- C3 counterexample: a Linguist plural entry (`numerus="yes"`) that is
Finished (no type attribute) is changed by `clear_finished_messages`: its
status becomes Unfinished and its value is cleared — the Linguist clearing
step does not exclude plural entries. -/
theorem c3_counterexample :
    c3_msg.numerus = some "yes" ∧
    c3_msg.translation.type_attr = none ∧
    ((c3_ts.clear_finished_messages.contexts.get? 0).bind
      (fun c => c.messages.get? 0)).map
      (fun m => (m.translation.type_attr, m.translation.value)) =
      some (some .unfinished, none) := by
  refine ⟨rfl, rfl, rfl⟩

/-- C3 (amended): for Gettext documents no plural entry is changed by
clearing or by propagation.  For Linguist documents the per-form plural
translations (`numerusform`) are never changed by clearing or propagation,
but plural entries are otherwise treated like any other entry: clearing
turns a Finished entry (plural or not) Unfinished with its value dropped,
and propagation may fill a plural entry through its singular value. -/
theorem c3_theorem :
    (∀ (po : Po) (i : Nat) (m : PoMessage),
      po.messages.get? i = some m → m.is_plural = true →
      po.clear_finished_messages.messages.get? i = some m) ∧
    (∀ {V : Type} (parse : String → Option V) (z : String → V → String)
      (src tgt tgt' : Po) (i : Nat) (m : PoMessage),
      translatePoContent parse z src tgt = .ok tgt' →
      tgt.messages.get? i = some m → m.is_plural = true →
      tgt'.messages.get? i = some m) ∧
    (∀ (ts : Ts) (i j : Nat) (ctx : Context) (m : Message),
      ts.contexts.get? i = some ctx → ctx.messages.get? j = some m →
      ∃ ctx' m', ts.clear_finished_messages.contexts.get? i = some ctx' ∧
        ctx'.messages.get? j = some m' ∧
        m'.translation.numerus_forms = m.translation.numerus_forms ∧
        m'.numerus = m.numerus ∧
        (m.translation.type_attr = none →
          m'.translation.type_attr = some .unfinished ∧ m'.translation.value = none)) ∧
    (∀ {V : Type} (parse : String → Option V) (z : String → V → String)
      (src tgt tgt' : Ts) (i j : Nat) (ctx : Context) (m : Message),
      translateTsContent parse z src tgt = .ok tgt' →
      tgt.contexts.get? i = some ctx → ctx.messages.get? j = some m →
      ∃ ctx' m', tgt'.contexts.get? i = some ctx' ∧ ctx'.messages.get? j = some m' ∧
        m'.translation.numerus_forms = m.translation.numerus_forms) := by
  refine ⟨?_, ?_, ?_, ?_⟩
  · intro po i m hm hp
    unfold Po.clear_finished_messages
    simp only [List.get?_map, hm, Option.map_some']
    rw [hp]
    simp
  · intro V parse z src tgt tgt' i m hok hm hp
    obtain ⟨hlen, msgs, hmsgs, rfl⟩ := translatePoContent_ok_inv hok
    obtain ⟨hlt, _⟩ := List.get?_eq_some.mp hm
    have hsrc : ∃ rm, src.messages.get? i = some rm := by
      have : i < src.messages.length := hlen ▸ hlt
      exact ⟨src.messages.get ⟨i, this⟩, List.get?_eq_get this⟩
    obtain ⟨rm, hrm⟩ := hsrc
    obtain ⟨m', hm', hmget⟩ := mapM2_ok_get hmsgs hrm hm
    rcases translatePoMessage_ok_cases hm' with rfl | ⟨hmp, _, _, _, _, _, _⟩
    · exact hmget
    · rw [hp] at hmp
      exact Bool.noConfusion hmp
  · intro ts i j ctx m hctx hm
    unfold Ts.clear_finished_messages
    refine ⟨{ ctx with messages := ctx.messages.map clearMessage },
      clearMessage m, ?_, ?_, ?_, ?_, ?_⟩
    · simp only [List.get?_map, hctx, Option.map_some']
    · simp only [List.get?_map, hm, Option.map_some']
    · unfold clearMessage
      split <;> rfl
    · unfold clearMessage
      split <;> rfl
    · intro hfin
      unfold clearMessage
      rw [if_neg (by simp [hfin])]
      exact ⟨rfl, rfl⟩
  · intro V parse z src tgt tgt' i j ctx m hok hctx hm
    obtain ⟨lang, _, hlen, ctxs, hctxs, rfl⟩ := translateTsContent_ok_inv hok
    obtain ⟨hlt, _⟩ := List.get?_eq_some.mp hctx
    have hsrc : ∃ sctx, src.contexts.get? i = some sctx := by
      have : i < src.contexts.length := hlen ▸ hlt
      exact ⟨src.contexts.get ⟨i, this⟩, List.get?_eq_get this⟩
    obtain ⟨sctx, hsctx⟩ := hsrc
    obtain ⟨ctx', hctx', hcget⟩ := mapM2_ok_get hctxs hsctx hctx
    obtain ⟨hclen, msgs, hmsgs, rfl⟩ := translateContext_ok_inv hctx'
    obtain ⟨hmlt, _⟩ := List.get?_eq_some.mp hm
    have hsm : ∃ sm, sctx.messages.get? j = some sm := by
      have : j < sctx.messages.length := hclen ▸ hmlt
      exact ⟨sctx.messages.get ⟨j, this⟩, List.get?_eq_get this⟩
    obtain ⟨sm, hsmj⟩ := hsm
    obtain ⟨m', hm', hmget⟩ := mapM2_ok_get hmsgs hsmj hm
    refine ⟨_, m', hcget, hmget, ?_⟩
    rcases translateMessage_ok_cases hm' with ⟨_, rfl⟩ | ⟨v, variant, _, _, _, _, rfl⟩
    · rfl
    · rfl

/-- C3 witness: the amended statement applied at concrete inputs — a
plural Gettext message untouched by clearing and by propagation, and a
Linguist plural entry whose `numerusform` list survives clearing and
propagation while clearing marks it Unfinished. -/
theorem c3_witness :
    (Po.clear_finished_messages
        { language := "zh_CN",
          messages := [{ msgctxt := none, msgid := "a",
                         body := .plural ["x"], fuzzy := false }] }).messages.get? 0 =
      some { msgctxt := none, msgid := "a", body := .plural ["x"], fuzzy := false } ∧
    ∃ ctx' m', c3_ts.clear_finished_messages.contexts.get? 0 = some ctx' ∧
      ctx'.messages.get? 0 = some m' ∧
      m'.translation.numerus_forms = c3_msg.translation.numerus_forms ∧
      m'.numerus = c3_msg.numerus ∧
      (c3_msg.translation.type_attr = none →
        m'.translation.type_attr = some .unfinished ∧ m'.translation.value = none) :=
  ⟨c3_theorem.1
      { language := "zh_CN",
        messages := [{ msgctxt := none, msgid := "a", body := .plural ["x"], fuzzy := false }] }
      0 { msgctxt := none, msgid := "a", body := .plural ["x"], fuzzy := false } rfl rfl,
   c3_theorem.2.2.1 c3_ts 0 0 { name := "C", messages := [c3_msg] } c3_msg rfl rfl⟩

/- ===================== Claim C10 ===================== -/

theorem set_msgstr_is_plural (m : PoMessage) (s : String) :
    (m.set_msgstr s).is_plural = m.is_plural := by
  unfold PoMessage.set_msgstr PoMessage.is_plural
  cases m.body <;> rfl

/-- C10: frame property of propagation.  The source document is passed
by shared reference in the Rust code and the embedding consumes it purely,
so it is unchanged by construction; on the target, a successful
propagation preserves the language code, version, group count, group
names, per-group entry counts, and every entry's locations, source text,
comment, plural marker and plural forms — and any entry that was not
eligible for filling (Linguist: target status Unfinished with a
non-Unfinished source; Gettext: untranslated non-plural target with a
translated source) is returned entirely unchanged. -/
theorem c10_theorem :
    (∀ {V : Type} (parse : String → Option V) (z : String → V → String)
      (src tgt tgt' : Ts),
      translateTsContent parse z src tgt = .ok tgt' →
      tgt'.language = tgt.language ∧ tgt'.version = tgt.version ∧
      tgt'.contexts.length = tgt.contexts.length ∧
      (∀ i ctx', tgt'.contexts.get? i = some ctx' →
        ∃ ctx sctx, tgt.contexts.get? i = some ctx ∧ src.contexts.get? i = some sctx ∧
          ctx'.name = ctx.name ∧ ctx'.messages.length = ctx.messages.length ∧
          ∀ j m', ctx'.messages.get? j = some m' →
            ∃ m sm, ctx.messages.get? j = some m ∧ sctx.messages.get? j = some sm ∧
              m'.location = m.location ∧ m'.source = m.source ∧
              m'.comment = m.comment ∧ m'.numerus = m.numerus ∧
              m'.translation.numerus_forms = m.translation.numerus_forms ∧
              (¬(m.translation.type_attr = some .unfinished ∧
                 sm.translation.type_attr ≠ some .unfinished) → m' = m))) ∧
    (∀ {V : Type} (parse : String → Option V) (z : String → V → String)
      (src tgt tgt' : Po),
      translatePoContent parse z src tgt = .ok tgt' →
      tgt'.language = tgt.language ∧
      tgt'.messages.length = tgt.messages.length ∧
      (∀ i m', tgt'.messages.get? i = some m' →
        ∃ m rm, tgt.messages.get? i = some m ∧ src.messages.get? i = some rm ∧
          m'.msgid = m.msgid ∧ m'.msgctxt = m.msgctxt ∧ m'.fuzzy = m.fuzzy ∧
          m'.is_plural = m.is_plural ∧
          (¬(m.is_translated = false ∧ rm.is_translated = true ∧
             m.is_plural = false) → m' = m))) := by
  constructor
  · intro V parse z src tgt tgt' hok
    obtain ⟨lang, _, hlen, ctxs, hctxs, rfl⟩ := translateTsContent_ok_inv hok
    refine ⟨rfl, rfl, ?_, ?_⟩
    · have := mapM2_ok_length hctxs
      simp only [this, hlen, Nat.min_self]
    · intro i ctx' hctx'
      obtain ⟨sctx, ctx, hsctx, hctx, htc⟩ := mapM2_ok_pairs hctxs hctx'
      obtain ⟨hclen, msgs, hmsgs, rfl⟩ := translateContext_ok_inv htc
      refine ⟨ctx, sctx, hctx, hsctx, rfl, ?_, ?_⟩
      · have := mapM2_ok_length hmsgs
        simp only [this, hclen, Nat.min_self]
      · intro j m' hm'
        obtain ⟨sm, m, hsm, hm, htm⟩ := mapM2_ok_pairs hmsgs hm'
        rcases translateMessage_ok_cases htm with ⟨hnot, heq⟩ | ⟨v, variant, hA, hB, _, _, heq⟩
        · exact ⟨m, sm, hm, hsm, by subst heq; rfl, by subst heq; rfl, by subst heq; rfl,
            by subst heq; rfl, by subst heq; rfl, fun _ => heq⟩
        · exact ⟨m, sm, hm, hsm, by subst heq; rfl, by subst heq; rfl, by subst heq; rfl,
            by subst heq; rfl, by subst heq; rfl, fun hnot => absurd ⟨hA, hB⟩ hnot⟩
  · intro V parse z src tgt tgt' hok
    obtain ⟨hlen, msgs, hmsgs, rfl⟩ := translatePoContent_ok_inv hok
    refine ⟨rfl, ?_, ?_⟩
    · have := mapM2_ok_length hmsgs
      simp only [this, hlen, Nat.min_self]
    · intro i m' hm'
      obtain ⟨rm, m, hrm, hm, htm⟩ := mapM2_ok_pairs hmsgs hm'
      rcases translatePoMessage_ok_cases htm with heq | ⟨hmp, hmt, hrt, s, variant, _, _, heq⟩
      · exact ⟨m, rm, hm, hrm, by subst heq; rfl, by subst heq; rfl, by subst heq; rfl,
          by subst heq; rfl, fun _ => heq⟩
      · refine ⟨m, rm, hm, hrm, ?_, ?_, ?_, ?_, ?_⟩
        · subst heq; unfold PoMessage.set_msgstr; cases m.body <;> rfl
        · subst heq; unfold PoMessage.set_msgstr; cases m.body <;> rfl
        · subst heq; unfold PoMessage.set_msgstr; cases m.body <;> rfl
        · subst heq; exact set_msgstr_is_plural m (z s variant)
        · intro hnot
          exact absurd ⟨hmt, hrt, hmp⟩ hnot

def c10_src : Ts :=
  { language := some "zh_CN", version := "2.1",
    contexts :=
      [{ name := "C",
         messages := [mkMessage none (some "text"),
                      mkMessage (some .obsolete) (some "o")] }] }

def c10_tgt : Ts :=
  { language := some "zh_TW", version := "2.1",
    contexts :=
      [{ name := "C",
         messages := [mkMessage (some .unfinished) none,
                      mkMessage (some .obsolete) (some "o")] }] }

def c10_res : Ts :=
  { language := some "zh_TW", version := "2.1",
    contexts :=
      [{ name := "C",
         messages := [mkMessage none (some "text"),
                      mkMessage (some .obsolete) (some "o")] }] }

def p10_src : Po :=
  { language := "zh_CN",
    messages := [{ msgctxt := none, msgid := "a", body := .singular "AAA", fuzzy := false }] }

def p10_tgt : Po :=
  { language := "zh_TW",
    messages := [{ msgctxt := none, msgid := "a", body := .singular "", fuzzy := false }] }

def p10_res : Po :=
  { language := "zh_TW",
    messages := [{ msgctxt := none, msgid := "a", body := .singular "AAA", fuzzy := false }] }

/-- C10 witness: the frame statement applied at concrete successful runs
of both propagation functions. -/
theorem c10_witness :
    (c10_res.language = c10_tgt.language ∧ c10_res.version = c10_tgt.version ∧
      c10_res.contexts.length = c10_tgt.contexts.length ∧
      (∀ i ctx', c10_res.contexts.get? i = some ctx' →
        ∃ ctx sctx, c10_tgt.contexts.get? i = some ctx ∧
          c10_src.contexts.get? i = some sctx ∧
          ctx'.name = ctx.name ∧ ctx'.messages.length = ctx.messages.length ∧
          ∀ j m', ctx'.messages.get? j = some m' →
            ∃ m sm, ctx.messages.get? j = some m ∧ sctx.messages.get? j = some sm ∧
              m'.location = m.location ∧ m'.source = m.source ∧
              m'.comment = m.comment ∧ m'.numerus = m.numerus ∧
              m'.translation.numerus_forms = m.translation.numerus_forms ∧
              (¬(m.translation.type_attr = some .unfinished ∧
                 sm.translation.type_attr ≠ some .unfinished) → m' = m))) ∧
    (p10_res.language = p10_tgt.language ∧
      p10_res.messages.length = p10_tgt.messages.length ∧
      (∀ i m', p10_res.messages.get? i = some m' →
        ∃ m rm, p10_tgt.messages.get? i = some m ∧ p10_src.messages.get? i = some rm ∧
          m'.msgid = m.msgid ∧ m'.msgctxt = m.msgctxt ∧ m'.fuzzy = m.fuzzy ∧
          m'.is_plural = m.is_plural ∧
          (¬(m.is_translated = false ∧ rm.is_translated = true ∧
             m.is_plural = false) → m' = m))) :=
  ⟨c10_theorem.1 parseAll zId c10_src c10_tgt c10_res rfl,
   c10_theorem.2 parseAll zId p10_src p10_tgt p10_res rfl⟩

/- ===================== Claim C5 ===================== -/

theorem selectBest_foldl_spec :
    ∀ (rest : List String) (best : String),
      (rest.foldl (fun b c =>
        if getSourceFilePriority c > getSourceFilePriority b then c else b) best) ∈ best :: rest ∧
      getSourceFilePriority best ≤ getSourceFilePriority (rest.foldl (fun b c =>
        if getSourceFilePriority c > getSourceFilePriority b then c else b) best) ∧
      ∀ d ∈ rest, getSourceFilePriority d ≤ getSourceFilePriority (rest.foldl (fun b c =>
        if getSourceFilePriority c > getSourceFilePriority b then c else b) best) := by
  intro rest
  induction rest with
  | nil =>
    intro best
    exact ⟨List.mem_cons_self best [], le_refl _, fun d hd => absurd hd (List.not_mem_nil d)⟩
  | cons c rest ih =>
    intro best
    simp only [List.foldl_cons]
    by_cases h : getSourceFilePriority c > getSourceFilePriority best
    · rw [if_pos h]
      obtain ⟨hmem, hle, hall⟩ := ih c
      refine ⟨?_, le_trans (le_of_lt h) hle, ?_⟩
      · rcases List.mem_cons.mp hmem with hc | hr
        · exact List.mem_cons.mpr (Or.inr (List.mem_cons.mpr (Or.inl hc)))
        · exact List.mem_cons.mpr (Or.inr (List.mem_cons.mpr (Or.inr hr)))
      · intro d hd
        rcases List.mem_cons.mp hd with rfl | hr
        · exact hle
        · exact hall d hr
    · rw [if_neg h]
      push_neg at h
      obtain ⟨hmem, hle, hall⟩ := ih best
      refine ⟨?_, hle, ?_⟩
      · rcases List.mem_cons.mp hmem with hc | hr
        · exact List.mem_cons.mpr (Or.inl hc)
        · exact List.mem_cons.mpr (Or.inr (List.mem_cons.mpr (Or.inr hr)))
      · intro d hd
        rcases List.mem_cons.mp hd with rfl | hr
        · exact le_trans h hle
        · exact hall d hr

def verifyAlways : String → String → Bool := fun _ _ => true

def c5_files : List String := ["app_en_US_zh_CN.ts", "app_en_US_ja_JP.ts"]

/-- C5 counterexample: two distinct files that the heuristic classifies as
source candidates (both carry the `en_US` marker) fall into the same
pattern family (`app_en_US_<lang>.ts`) and both receive priority `10`
(their trailing detected codes `zh_CN` / `ja_JP` are non-English) — a tie,
so "ties are impossible because priority is a total order over the
candidate set" fails; selection still returns exactly one file, the first
one. -/
theorem c5_counterexample :
    getSourceFilePriority "app_en_US_zh_CN.ts" = 10 ∧
    getSourceFilePriority "app_en_US_ja_JP.ts" = 10 ∧
    isLikelySourceFile verifyAlways c5_files "app_en_US_zh_CN.ts" = true ∧
    isLikelySourceFile verifyAlways c5_files "app_en_US_ja_JP.ts" = true ∧
    getTranslationPatternWithInference verifyAlways "app_en_US_zh_CN.ts" c5_files =
      getTranslationPatternWithInference verifyAlways "app_en_US_ja_JP.ts" c5_files ∧
    identifySourceFiles verifyAlways c5_files = ["app_en_US_zh_CN.ts"] := by
  refine ⟨rfl, rfl, rfl, rfl, by decide, rfl⟩

/-- C5 (amended): the priority function assigns 100 to a file with no
detected language code, 90 to `en`, 80 to `en_US`, 70 to `en_GB`, and 10
to any other detected code; selection returns exactly one file from a
non-empty candidate list, one attaining the maximal priority (the first
such file — ties are possible, e.g. between two distinct non-English
codes, both priority 10); for `{app_en_GB.ts, app_en_US.ts}` the selected
file is `app_en_US.ts`. -/
theorem c5_theorem :
    (∀ (candidates : List String) (c : String),
      selectBestSourceFile candidates = some c →
      c ∈ candidates ∧
      ∀ d ∈ candidates, getSourceFilePriority d ≤ getSourceFilePriority c) ∧
    (∀ candidates : List String, candidates ≠ [] →
      ∃ c, selectBestSourceFile candidates = some c) ∧
    (getSourceFilePriority "example.ts" = 100 ∧
     getSourceFilePriority "example_en.ts" = 90 ∧
     getSourceFilePriority "example_en_US.ts" = 80 ∧
     getSourceFilePriority "example_en_GB.ts" = 70 ∧
     getSourceFilePriority "example_zh_CN.ts" = 10) ∧
    selectBestSourceFile ["app_en_GB.ts", "app_en_US.ts"] = some "app_en_US.ts" := by
  refine ⟨?_, ?_, ⟨rfl, rfl, rfl, rfl, rfl⟩, rfl⟩
  · intro candidates c hsel
    cases candidates with
    | nil => exact absurd hsel (by simp [selectBestSourceFile])
    | cons c0 rest =>
      unfold selectBestSourceFile at hsel
      injection hsel with hsel
      obtain ⟨hmem, hle, hall⟩ := selectBest_foldl_spec rest c0
      rw [hsel] at hmem hle hall
      refine ⟨hmem, ?_⟩
      intro d hd
      rcases List.mem_cons.mp hd with rfl | hr
      · exact hle
      · exact hall d hr
  · intro candidates hne
    cases candidates with
    | nil => exact absurd rfl hne
    | cons c0 rest => exact ⟨_, rfl⟩

/-- C5 witness: the amended statement applied to the concrete candidate
sets of the spec's scenarios. -/
theorem c5_witness :
    ("app_en_US.ts" ∈ ["app_en_GB.ts", "app_en_US.ts"] ∧
      ∀ d ∈ ["app_en_GB.ts", "app_en_US.ts"],
        getSourceFilePriority d ≤ getSourceFilePriority "app_en_US.ts") ∧
    ∃ c, selectBestSourceFile ["app.ts", "app_en.ts"] = some c :=
  ⟨c5_theorem.1 ["app_en_GB.ts", "app_en_US.ts"] "app_en_US.ts" rfl,
   c5_theorem.2.1 ["app.ts", "app_en.ts"] (by simp)⟩

/- ===================== Claim C6 ===================== -/

def c6_fs : DirFs :=
  { readDir := fun p => if p = ["locales"] then some ["translations"] else none,
    isFile := fun p => decide (p = ["locales", "translations", "messages.po"]) }

/-- C6 counterexample: the shape check of the directory branch is an
unanchored regex search, so the child directory `translations` (12
characters, not of the anchored shape `[A-Za-z_]{2,6}`) is emitted as a
language code as soon as the suffix file exists under it — "entries whose
name does not match that shape are never emitted" fails as stated. -/
theorem c6_counterexample :
    matchTargetFilesLangDir c6_fs ["locales", "<lang>", "messages.po"] =
      .ok [("translations", ["locales", "translations", "messages.po"])] ∧
    langShapeAnchoredSpec "translations" = false ∧
    strContains "messages.po" "<lang>" = false := by
  refine ⟨rfl, rfl, rfl⟩

/-- C6 (amended): for a template whose `<lang>` token is a whole non-final
path component, reverse discovery emits `(child_name, resolved_path)`
exactly for the listed entries of the prefix directory whose name contains
at least two adjacent characters of the class `[A-Za-z_]` (the code's
check `Regex::new("[a-z_A-Z]{2,6}").is_match` is unanchored) and for
which `prefix/child/suffix` exists as a file. -/
theorem c6_theorem (fsys : DirFs) (template : List String)
    (prefix_dir remain entries : List String)
    (_hlast : ∀ lastc, template.getLast? = some lastc →
      strContains lastc "<lang>" = false)
    (hsplit : splitAtLangComponent template = some (prefix_dir, remain))
    (hdir : fsys.readDir prefix_dir = some entries) :
    ∃ l, matchTargetFilesLangDir fsys template = .ok l ∧
      ∀ name path, (name, path) ∈ l ↔
        (name ∈ entries ∧ langShapeSearch name = true ∧
         path = prefix_dir ++ name :: remain ∧ fsys.isFile path = true) := by
  unfold matchTargetFilesLangDir
  simp only [hsplit]
  simp only [hdir]
  refine ⟨_, rfl, ?_⟩
  intro name path
  rw [List.mem_filterMap]
  constructor
  · rintro ⟨e, he, hfe⟩
    by_cases h1 : langShapeSearch e = true
    · rw [if_pos h1] at hfe
      by_cases h2 : fsys.isFile (prefix_dir ++ e :: remain) = true
      · rw [if_pos h2] at hfe
        injection hfe with hfe
        obtain ⟨rfl, rfl⟩ : e = name ∧ (prefix_dir ++ e :: remain) = path := by
          constructor
          · exact congrArg Prod.fst hfe
          · exact congrArg Prod.snd hfe
        exact ⟨he, h1, rfl, h2⟩
      · rw [if_neg h2] at hfe
        exact absurd hfe (by simp)
    · rw [if_neg h1] at hfe
      exact absurd hfe (by simp)
  · rintro ⟨hmem, hshape, rfl, hfile⟩
    refine ⟨name, hmem, ?_⟩
    rw [if_pos hshape, if_pos hfile]

def c6w_fs : DirFs :=
  { readDir := fun p => if p = ["locales"] then some ["fr", "zh_CN"] else none,
    isFile := fun p =>
      decide (p = ["locales", "fr", "messages.po"]) ||
      decide (p = ["locales", "zh_CN", "messages.po"]) }

/-- C6 witness: the amended statement applied at the spec's scenario
(`locales/<lang>/messages.po` over `locales/{fr, zh_CN}`). -/
theorem c6_witness :
    ∃ l, matchTargetFilesLangDir c6w_fs ["locales", "<lang>", "messages.po"] = .ok l ∧
      ∀ name path, (name, path) ∈ l ↔
        (name ∈ ["fr", "zh_CN"] ∧ langShapeSearch name = true ∧
         path = ["locales"] ++ name :: ["messages.po"] ∧
         c6w_fs.isFile path = true) :=
  c6_theorem c6w_fs ["locales", "<lang>", "messages.po"]
    ["locales"] ["messages.po"] ["fr", "zh_CN"]
    (fun lastc h => by
      have h2 : some ("messages.po" : String) = some lastc :=
        (show List.getLast? ["locales", "<lang>", "messages.po"] = some "messages.po"
          from rfl).symm.trans h
      injection h2 with h2
      subst h2
      rfl)
    rfl rfl

/- ===================== Claim C9 ===================== -/

theorem applySaves_nil (fs : FileStore) : applySaves [] fs = fs := rfl

theorem applySaves_cons (p : String) (d : ZhConvFile)
    (rest : List (String × ZhConvFile)) (fs : FileStore) :
    applySaves ((p, d) :: rest) fs = applySaves rest (insertFile fs p d) := rfl

theorem lookup_insert_self : ∀ (fs : FileStore) (p : String) (d : ZhConvFile),
    lookupFile (insertFile fs p d) p = some d := by
  intro fs
  induction fs with
  | nil => intro p d; simp [insertFile, lookupFile]
  | cons qe rest ih =>
    intro p d
    obtain ⟨q, e⟩ := qe
    unfold insertFile
    by_cases h : q = p
    · rw [if_pos h]
      simp [lookupFile]
    · rw [if_neg h]
      unfold lookupFile
      rw [if_neg h]
      exact ih p d

theorem lookup_insert_ne : ∀ (fs : FileStore) (p q : String) (d : ZhConvFile),
    p ≠ q → lookupFile (insertFile fs p d) q = lookupFile fs q := by
  intro fs
  induction fs with
  | nil =>
    intro p q d h
    simp [insertFile, lookupFile, h]
  | cons qe rest ih =>
    intro p q d h
    obtain ⟨q0, e0⟩ := qe
    unfold insertFile
    by_cases h0 : q0 = p
    · rw [if_pos h0]
      show lookupFile ((p, d) :: rest) q = lookupFile ((q0, e0) :: rest) q
      unfold lookupFile
      rw [if_neg h, if_neg (show ¬q0 = q from by rw [h0]; exact h)]
    · rw [if_neg h0]
      unfold lookupFile
      by_cases h1 : q0 = q
      · rw [if_pos h1, if_pos h1]
      · rw [if_neg h1, if_neg h1]
        exact ih p q d h

theorem lookup_applySaves_not_mem :
    ∀ (saves : List (String × ZhConvFile)) (fs : FileStore) (p : String),
    p ∉ saves.map Prod.fst →
    lookupFile (applySaves saves fs) p = lookupFile fs p := by
  intro saves
  induction saves with
  | nil => intro fs p _; rfl
  | cons qe rest ih =>
    intro fs p hp
    obtain ⟨q, e⟩ := qe
    simp only [List.map_cons, List.mem_cons, not_or] at hp
    rw [applySaves_cons, ih (insertFile fs q e) p hp.2,
      lookup_insert_ne fs q p e (fun h => hp.1 h.symm)]

theorem lookup_applySaves_mem :
    ∀ (saves : List (String × ZhConvFile)) (fs : FileStore) (p : String)
      (d : ZhConvFile), (p, d) ∈ saves → (saves.map Prod.fst).Nodup →
    lookupFile (applySaves saves fs) p = some d := by
  intro saves
  induction saves with
  | nil => intro fs p d hmem _; exact absurd hmem (List.not_mem_nil _)
  | cons qe rest ih =>
    intro fs p d hmem hnodup
    obtain ⟨q, e⟩ := qe
    simp only [List.map_cons, List.nodup_cons] at hnodup
    rcases List.mem_cons.mp hmem with heq | hr
    · obtain ⟨hq, he⟩ : q = p ∧ e = d :=
        ⟨(congrArg Prod.fst heq).symm, (congrArg Prod.snd heq).symm⟩
      subst hq
      subst he
      rw [applySaves_cons, lookup_applySaves_not_mem rest _ q hnodup.1,
        lookup_insert_self]
    · rw [applySaves_cons]
      exact ih (insertFile fs q e) p d hr hnodup.2

theorem triple_eq_inv {A B C : Type} {a a' : A} {b b' : B} {c c' : C}
    (h : (a, b, c) = (a', b', c')) : a = a' ∧ b = b' ∧ c = c' := by
  injection h with h1 h23
  injection h23 with h2 h3
  exact ⟨h1, h2, h3⟩

theorem saveTargets_spec {V : Type} (parse : String → Option V)
    (z : String → V → String) (savePolicy : String → Bool) (source : ZhConvFile) :
    ∀ (lst : List (String × ZhConvFile)) (fs fs' : FileStore)
      (evs : List FsEvent) (res : Except CmdError Unit),
    saveTargets parse z savePolicy source lst fs = (fs', evs, res) →
    ∃ saved : List (String × ZhConvFile),
      fs' = applySaves saved fs ∧
      evs = saved.map (fun pd => FsEvent.saveTarget pd.1) ∧
      saved.length ≤ lst.length ∧
      (∀ k, k < saved.length → ∃ pd pd', lst.get? k = some pd ∧
        saved.get? k = some pd' ∧ pd'.1 = pd.1 ∧
        pd.2.translate_content_based_on parse z source = .ok pd'.2 ∧
        savePolicy pd.1 = true) ∧
      (res = .ok () ↔ saved.length = lst.length) := by
  intro lst
  induction lst with
  | nil =>
    intro fs fs' evs res h
    obtain ⟨rfl, rfl, rfl⟩ := triple_eq_inv h
    exact ⟨[], rfl, rfl, Nat.le_refl 0,
      fun k hk => absurd hk (Nat.not_lt_zero k), by simp⟩
  | cons pd0 rest ih =>
    intro fs fs' evs res h
    obtain ⟨p, d⟩ := pd0
    unfold saveTargets at h
    cases ht : d.translate_content_based_on parse z source with
    | error e =>
      simp only [ht] at h
      obtain ⟨rfl, rfl, rfl⟩ := triple_eq_inv h
      refine ⟨[], rfl, rfl, Nat.zero_le _,
        fun k hk => absurd hk (Nat.not_lt_zero k), by simp⟩
    | ok d' =>
      simp only [ht] at h
      by_cases hpol : savePolicy p = true
      · rw [if_pos hpol] at h
        rcases hsr : saveTargets parse z savePolicy source rest (insertFile fs p d')
          with ⟨a, b, c⟩
        simp only [hsr] at h
        obtain ⟨rfl, rfl, rfl⟩ := triple_eq_inv h
        obtain ⟨saved, hfs, hevs, hlen, hpos, hiff⟩ :=
          ih (insertFile fs p d') a b c hsr
        refine ⟨(p, d') :: saved, ?_, ?_, ?_, ?_, ?_⟩
        · rw [applySaves_cons]
          exact hfs
        · simp [hevs]
        · simpa using Nat.succ_le_succ hlen
        · intro k hk
          cases k with
          | zero => exact ⟨(p, d), (p, d'), rfl, rfl, rfl, ht, hpol⟩
          | succ k =>
            obtain ⟨pd, pd', h1, h2, h3, h4, h5⟩ :=
              hpos k (by simpa using Nat.lt_of_succ_lt_succ hk)
            exact ⟨pd, pd', h1, h2, h3, h4, h5⟩
        · simp only [List.length_cons]
          rw [hiff]
          omega
      · rw [if_neg hpol] at h
        obtain ⟨rfl, rfl, rfl⟩ := triple_eq_inv h
        refine ⟨[], rfl, rfl, Nat.zero_le _,
          fun k hk => absurd hk (Nat.not_lt_zero k), by simp⟩

theorem loadTargets_ok_length (source : ZhConvFile) (fs : FileStore)
    (dir file_name source_language : String) :
    ∀ (langs : List String) (lst : List (String × ZhConvFile)),
    loadTargets source fs dir file_name source_language langs = .ok lst →
    lst.length = langs.length := by
  intro langs
  induction langs with
  | nil =>
    intro lst h
    unfold loadTargets at h
    injection h with h
    simp [← h]
  | cons lang rest ih =>
    intro lst h
    unfold loadTargets at h
    rw [except_bind_ok] at h
    obtain ⟨loaded, _, h⟩ := h
    rw [except_bind_ok] at h
    obtain ⟨tail, htail, h⟩ := h
    simp only [pure, Except.pure, Except.ok.injEq] at h
    rw [← h]
    simp [ih tail htail]

/-- C9: in the batch driver, the event trace is always a block of
target-document loads followed by a block of target-file saves — no save
happens before every target in the batch has been loaded or created; saves
proceed per-target in list order, each saved target being the converted
form of the correspondingly loaded target with a permitted write; the
final store is exactly the initial store overwritten by the performed
saves, so when a later target fails the earlier saves persist (no
rollback: with distinct paths each saved document is still found in the
final store); a success means every loaded target was saved. -/
theorem c9_theorem {V : Type} (parse : String → Option V) (z : String → V → String)
    (savePolicy : String → Bool) (source_language : String)
    (target_languages : List String) (file : String) (fs fs' : FileStore)
    (trace : List FsEvent) (res : Except CmdError Unit)
    (h : subcmdZhconv parse z savePolicy source_language target_languages file fs =
      (fs', trace, res)) :
    ∃ (source_content : ZhConvFile) (loaded saved : List (String × ZhConvFile)),
      trace = loaded.map (fun pd => FsEvent.loadTarget pd.1) ++
              saved.map (fun pd => FsEvent.saveTarget pd.1) ∧
      fs' = applySaves saved fs ∧
      saved.length ≤ loaded.length ∧
      (loaded ≠ [] → loaded.length = target_languages.length) ∧
      (∀ k, k < saved.length → ∃ pd pd', loaded.get? k = some pd ∧
        saved.get? k = some pd' ∧ pd'.1 = pd.1 ∧
        pd.2.translate_content_based_on parse z source_content = .ok pd'.2 ∧
        savePolicy pd.1 = true) ∧
      (res = .ok () → saved.length = loaded.length) ∧
      ((saved.map Prod.fst).Nodup →
        ∀ pd, pd ∈ saved → lookupFile fs' pd.1 = some pd.2) := by
  unfold subcmdZhconv at h
  by_cases h1 : (lookupFile fs file).isNone = true
  · rw [if_pos h1] at h
    obtain ⟨rfl, rfl, rfl⟩ := triple_eq_inv h
    exact ⟨.linguist { language := none, version := "", contexts := [] }, [], [],
      rfl, rfl, Nat.le_refl 0, fun hne => absurd rfl hne,
      fun k hk => absurd hk (Nat.not_lt_zero k),
      fun hok => rfl, fun _ pd hpd => absurd hpd (List.not_mem_nil pd)⟩
  · rw [if_neg h1] at h
    by_cases h2 : (!strContains (fileNameOf file) source_language) = true
    · rw [if_pos h2] at h
      obtain ⟨rfl, rfl, rfl⟩ := triple_eq_inv h
      exact ⟨.linguist { language := none, version := "", contexts := [] }, [], [],
        rfl, rfl, Nat.le_refl 0, fun hne => absurd rfl hne,
        fun k hk => absurd hk (Nat.not_lt_zero k),
        fun hok => rfl, fun _ pd hpd => absurd hpd (List.not_mem_nil pd)⟩
    · rw [if_neg h2] at h
      cases hload : ZhConvFile.load_file fs file with
      | error e =>
        simp only [hload] at h
        obtain ⟨rfl, rfl, rfl⟩ := triple_eq_inv h
        exact ⟨.linguist { language := none, version := "", contexts := [] }, [], [],
          rfl, rfl, Nat.le_refl 0, fun hne => absurd rfl hne,
          fun k hk => absurd hk (Nat.not_lt_zero k),
          fun hok => rfl, fun _ pd hpd => absurd hpd (List.not_mem_nil pd)⟩
      | ok source_content =>
        simp only [hload] at h
        cases hlt : loadTargets source_content fs (parentOf file)
            (fileNameOf file) source_language target_languages with
        | error e =>
          simp only [hlt] at h
          obtain ⟨rfl, rfl, rfl⟩ := triple_eq_inv h
          exact ⟨source_content, [], [],
            rfl, rfl, Nat.le_refl 0, fun hne => absurd rfl hne,
            fun k hk => absurd hk (Nat.not_lt_zero k),
            fun hok => rfl, fun _ pd hpd => absurd hpd (List.not_mem_nil pd)⟩
        | ok target_contents =>
          simp only [hlt] at h
          rcases hsr : saveTargets parse z savePolicy source_content target_contents fs
            with ⟨a, b, c⟩
          simp only [hsr] at h
          obtain ⟨rfl, rfl, rfl⟩ := triple_eq_inv h
          obtain ⟨saved, hfs, hevs, hlen, hpos, hiff⟩ :=
            saveTargets_spec parse z savePolicy source_content target_contents fs a b c hsr
          refine ⟨source_content, target_contents, saved, ?_, hfs, hlen, ?_, hpos,
            fun hok => ?_, ?_⟩
          · rw [hevs]
          · intro _
            exact loadTargets_ok_length source_content fs (parentOf file)
              (fileNameOf file) source_language target_languages target_contents hlt
          · exact hiff.mp hok
          · intro hnodup pd hpd
            rw [hfs]
            exact lookup_applySaves_mem saved fs pd.1 pd.2 hpd hnodup

def c9_ts : Ts := { language := some "zh_CN", version := "1", contexts := [] }

def c9_ts_tw : Ts := { language := some "zh_TW", version := "1", contexts := [] }

def c9_fs : FileStore := [("a_zh_CN.ts", .linguist c9_ts)]

def c9_fs2 : FileStore :=
  [("a_zh_CN.ts", .linguist c9_ts), ("a_zh_TW.ts", .linguist c9_ts_tw)]

/-- C9 witness: the driver statement applied at a concrete successful
batch run (one target language, bootstrapped from the source file). -/
theorem c9_witness :
    ∃ (source_content : ZhConvFile) (loaded saved : List (String × ZhConvFile)),
      [FsEvent.loadTarget "a_zh_TW.ts", FsEvent.saveTarget "a_zh_TW.ts"] =
        loaded.map (fun pd => FsEvent.loadTarget pd.1) ++
        saved.map (fun pd => FsEvent.saveTarget pd.1) ∧
      c9_fs2 = applySaves saved c9_fs ∧
      saved.length ≤ loaded.length ∧
      (loaded ≠ [] → loaded.length = ["zh_TW"].length) ∧
      (∀ k, k < saved.length → ∃ pd pd', loaded.get? k = some pd ∧
        saved.get? k = some pd' ∧ pd'.1 = pd.1 ∧
        pd.2.translate_content_based_on parseAll zId source_content = .ok pd'.2 ∧
        (fun _ => true : String → Bool) pd.1 = true) ∧
      ((Except.ok () : Except CmdError Unit) = Except.ok () →
        saved.length = loaded.length) ∧
      ((saved.map Prod.fst).Nodup →
        ∀ pd, pd ∈ saved → lookupFile c9_fs2 pd.1 = some pd.2) :=
  c9_theorem parseAll zId (fun _ => true) "zh_CN" ["zh_TW"] "a_zh_CN.ts"
    c9_fs c9_fs2
    [FsEvent.loadTarget "a_zh_TW.ts", FsEvent.saveTarget "a_zh_TW.ts"]
    (.ok ()) rfl

end DeepinTranslationUtils
